import Mathlib

/-!
Verification development for the Geth-style trace builder
(crates/revm/revm-inspectors/src/tracing/builder/geth.rs).

Modelling conventions:
- addresses, hashes, opcodes and words are modelled as Nat; byte strings as List Nat;
- BTreeMap and HashMap are modelled as association lists (List (Nat × _)) with a
  keyed insert that replaces in place or appends;
- Rust panics (expect, out-of-bounds indexing, debug_assert under debug-build
  semantics) are modelled as Except.error with the panic message;
- the fallible pre-state database (DatabaseRef) is modelled as a pair of explicit
  lookup functions returning Except with a Nat error payload;
- helper functions of CallTraceNode / CallTraceStep that live in another crate of
  the repository are modelled from the spec; each such definition carries a doc
  comment starting with "Modelled from the spec:".
-/

set_option linter.unusedVariables false

namespace GethSpec

/-- Association-list lookup, modelling map search by key. -/
def alookup {α : Type} (k : Nat) : List (Nat × α) → Option α
  | [] => none
  | (k', v) :: rest => if k = k' then some v else alookup k rest

/-- Association-list insert, modelling map insertion: replaces the value at an
existing key in place, otherwise appends the new binding at the end. -/
def alInsert {α : Type} (k : Nat) (v : α) : List (Nat × α) → List (Nat × α)
  | [] => [(k, v)]
  | (k', v') :: rest => if k = k' then (k, v) :: rest else (k', v') :: alInsert k v rest

/-- Change classification of an account in the prestate tracer output
(reth_rpc_types ChangeType). Modelled from the spec: one of Create, Modify,
Destroy; Modify is the default used for absent entries. -/
inductive ChangeType where
  | Modify
  | Create
  | Destroy
deriving DecidableEq

/-- Account state entry of the prestate tracer output (reth_rpc_types
AccountState): optional balance, nonce, code and storage plus the change
classification. -/
structure AccountState where
  balance : Option Nat
  nonce : Option Nat
  code : Option (List Nat)
  storage : Option (List (Nat × Nat))
  change_type : ChangeType
deriving DecidableEq

instance : Inhabited AccountState := ⟨⟨none, none, none, none, ChangeType.Modify⟩⟩

/-- A recorded storage mutation carried by one step; value is the post-mutation
value and had_value the pre-mutation value. -/
structure StorageChange where
  key : Nat
  value : Nat
  had_value : Nat
deriving DecidableEq

/-- One recorded instruction (CallTraceStep). Modelled from the spec: program
counter, opcode, gas figures, depth, the executing contract, an optional
storage-slot mutation and an optional reference to the child call node spawned
by this step (set exactly when the instruction is a call-type operation). -/
structure CallTraceStep where
  pc : Nat
  op : Nat
  gas_remaining : Nat
  gas_cost : Nat
  depth : Nat
  contract : Nat
  storage_change : Option StorageChange
  call_child_id : Option Nat
deriving DecidableEq

/-- Call metadata and step sequence of one call tree node (CallTrace). -/
structure CallTrace where
  kind : Nat
  caller : Nat
  address : Nat
  value : Nat
  gas_limit : Nat
  gas_used : Nat
  data : List Nat
  output : List Nat
  logs : List Nat
  success : Bool
  selfdestruct : Bool
  steps : List CallTraceStep
deriving DecidableEq

/-- One node of the flat call-tree arena (CallTraceNode): a back-reference to the
parent index and the recorded trace. -/
structure CallTraceNode where
  parent : Option Nat
  trace : CallTrace
deriving DecidableEq

/-- Step-log configuration (GethDefaultTracingOptions). Modelled from the spec:
boolean capture flags; is_storage_enabled and is_return_data_enabled are the
two flags read by fill_geth_trace. -/
structure GethDefaultTracingOptions where
  storage_enabled : Bool
  return_data_enabled : Bool
deriving DecidableEq

/-- One emitted step-log entry (StructLog): instruction data plus the optional
per-contract storage snapshot and optional return data. -/
structure StructLog where
  pc : Nat
  op : Nat
  gas : Nat
  gas_cost : Nat
  depth : Nat
  storage : Option (List (Nat × Nat))
  return_data : Option (List Nat)
deriving DecidableEq

/-- Modelled from the spec: CallTraceStep::convert_to_geth_struct_log (not under
src/) converts one step into a log entry; the optional storage snapshot and
return data start absent and are filled in by the loop of fill_geth_trace. -/
def convert_to_geth_struct_log (step : CallTraceStep) : StructLog :=
  { pc := step.pc, op := step.op, gas := step.gas_remaining, gas_cost := step.gas_cost,
    depth := step.depth, storage := none, return_data := none }

/-- The step-log envelope (DefaultFrame). -/
structure DefaultFrame where
  failed : Bool
  gas : Nat
  return_value : List Nat
  struct_logs : List StructLog
deriving DecidableEq

/-- Default::default() for DefaultFrame. -/
def emptyDefaultFrame : DefaultFrame :=
  { failed := false, gas := 0, return_value := [], struct_logs := [] }

/-- Work-stack item of fill_geth_trace (CallTraceStepStackItem): the owning
node's index, the step itself, and the child call node spawned at this step. -/
structure CallTraceStepStackItem where
  trace_node : Nat
  step : CallTraceStep
  call_child_id : Option Nat
deriving DecidableEq

/-- Steps owned by node i (empty for an out-of-range index). -/
def childSteps (nodes : List CallTraceNode) (i : Nat) : List CallTraceStep :=
  ((nodes[i]?).map (fun nd => nd.trace.steps)).getD []

/-- The stack items for the given steps of node i. -/
def stackItems (i : Nat) (steps : List CallTraceStep) : List CallTraceStepStackItem :=
  steps.map (fun s => { trace_node := i, step := s, call_child_id := s.call_child_id })

/-- Modelled from the spec: CallTraceNode::push_steps_on_stack (not under src/)
pushes all steps of node i onto the work stack in reverse so the node's first
step is drawn next. The stack top is the list head here, so this prepends the
steps in order, which is the same operation on the other end of the deque. -/
def push_steps_on_stack (nodes : List CallTraceNode) (i : Nat)
    (stack : List CallTraceStepStackItem) : List CallTraceStepStackItem :=
  stackItems i (childSteps nodes i) ++ stack

/-- The running per-contract storage table of fill_geth_trace:
HashMap of Address to BTreeMap of H256 to H256. -/
abbrev StorageMap := List (Nat × List (Nat × Nat))

/-- Loop body of fill_geth_trace for one popped item: convert the step; when
storage capture is enabled fetch-or-create the contract's running storage entry
and, if the step carries a storage change, merge it and attach a snapshot; when
return-data capture is enabled attach the owning node's output. -/
def processStep (nodes : List CallTraceNode) (opts : GethDefaultTracingOptions)
    (owner : Nat) (step : CallTraceStep) (storage : StorageMap) :
    StructLog × StorageMap :=
  let log0 := convert_to_geth_struct_log step
  let p :=
    if opts.storage_enabled then
      let contract_storage := (alookup step.contract storage).getD []
      match step.storage_change with
      | some change =>
        let cs := alInsert change.key change.value contract_storage
        ({ log0 with storage := some cs }, alInsert step.contract cs storage)
      | none => (log0, alInsert step.contract contract_storage storage)
    else (log0, storage)
  if opts.return_data_enabled then
    ({ p.1 with return_data := some (((nodes[owner]?).map (fun nd => nd.trace.output)).getD []) }, p.2)
  else p

/-- The while loop of fill_geth_trace, with explicit fuel. The source loop
terminates because a well-formed tree only pushes nodes of strictly larger
index; the fuel below (fillFuel) is large enough for every well-formed tree.
Out-of-range child indices push nothing (in the source this would be an
out-of-bounds panic, which cannot happen for a well-formed tree). -/
def fillLoop (nodes : List CallTraceNode) (opts : GethDefaultTracingOptions) :
    Nat → List CallTraceStepStackItem → StorageMap → List StructLog
  | 0, _, _ => []
  | _ + 1, [], _ => []
  | fuel + 1, item :: rest, storage =>
    let p := processStep nodes opts item.trace_node item.step storage
    let stack' :=
      match item.call_child_id with
      | some c => push_steps_on_stack nodes c rest
      | none => rest
    p.1 :: fillLoop nodes opts fuel stack' p.2

/-- Total number of recorded steps over all nodes. -/
def totalSteps (nodes : List CallTraceNode) : Nat :=
  (nodes.map (fun nd => nd.trace.steps.length)).sum

/-- Fuel for fillLoop: an upper bound on the number of emitted log entries for
any call tree whose child references always point to strictly larger indices. -/
def fillFuel (nodes : List CallTraceNode) : Nat :=
  (totalSteps nodes + 1) ^ (nodes.length + 1)

/-- fill_geth_trace applied to the root node, as called from geth_traces: seed
the stack with the root node's steps and drain it. -/
def fill_geth_trace (nodes : List CallTraceNode) (opts : GethDefaultTracingOptions) :
    List StructLog :=
  fillLoop nodes opts (fillFuel nodes) (push_steps_on_stack nodes 0 []) []

/-- geth_traces: the step-log envelope; empty arena yields Default::default(). -/
def geth_traces (nodes : List CallTraceNode) (receipt_gas_used : Nat)
    (return_value : List Nat) (opts : GethDefaultTracingOptions) : DefaultFrame :=
  match nodes[0]? with
  | none => emptyDefaultFrame
  | some main_trace_node =>
    { failed := !main_trace_node.trace.success,
      gas := receipt_gas_used,
      return_value := return_value,
      struct_logs := fill_geth_trace nodes opts }

/-- Specification-side expansion of the execution order: the logs of the owner's
steps with, right after each call step, the child node's expansion spliced in,
recursively, threading the running storage table left to right. A child
reference that does not point to a strictly larger in-range index is ignored
(a well-formed tree has none). -/
def expandFrom (nodes : List CallTraceNode) (opts : GethDefaultTracingOptions)
    (owner : Nat) (steps : List CallTraceStep) (storage : StorageMap) :
    List StructLog × StorageMap :=
  match steps with
  | [] => ([], storage)
  | step :: rest =>
    let p := processStep nodes opts owner step storage
    match step.call_child_id with
    | some c =>
      if h : owner < c ∧ c < nodes.length then
        let cres := expandFrom nodes opts c (childSteps nodes c) p.2
        let rres := expandFrom nodes opts owner rest cres.2
        (p.1 :: (cres.1 ++ rres.1), rres.2)
      else
        let rres := expandFrom nodes opts owner rest p.2
        (p.1 :: rres.1, rres.2)
    | none =>
      let rres := expandFrom nodes opts owner rest p.2
      (p.1 :: rres.1, rres.2)
termination_by (nodes.length - owner, steps.length)
decreasing_by
  all_goals first
    | (apply Prod.Lex.left; omega)
    | (apply Prod.Lex.right; simp)

/-- Specification-side expansion of a whole work stack, item by item. -/
def expandStack (nodes : List CallTraceNode) (opts : GethDefaultTracingOptions) :
    List CallTraceStepStackItem → StorageMap → List StructLog × StorageMap
  | [], storage => ([], storage)
  | item :: rest, storage =>
    let p := processStep nodes opts item.trace_node item.step storage
    match item.call_child_id with
    | some c =>
      if item.trace_node < c ∧ c < nodes.length then
        let cres := expandFrom nodes opts c (childSteps nodes c) p.2
        let rres := expandStack nodes opts rest cres.2
        (p.1 :: (cres.1 ++ rres.1), rres.2)
      else
        let rres := expandStack nodes opts rest p.2
        (p.1 :: rres.1, rres.2)
    | none =>
      let rres := expandStack nodes opts rest p.2
      (p.1 :: rres.1, rres.2)

/-- Well-formedness of step child references: every child reference of every
step of node i points to a strictly larger, in-range node index. -/
def WfStepRefs (nodes : List CallTraceNode) : Prop :=
  ∀ i, ∀ hi : i < nodes.length, ∀ step ∈ (nodes[i]).trace.steps,
    ∀ c, step.call_child_id = some c → i < c ∧ c < nodes.length

instance (nodes : List CallTraceNode) : Decidable (WfStepRefs nodes) := by
  unfold WfStepRefs
  exact Nat.decidableBallLT _ _

/-! ## Call frame assembler (geth_call_traces) -/

/-- Call tracer configuration (CallConfig). -/
structure CallConfig where
  only_top_call : Option Bool
  with_log : Option Bool
deriving DecidableEq

/-- Non-recursive fields of a call frame (CallFrame minus calls). -/
structure FrameData where
  typ : Nat
  caller : Nat
  toAddr : Option Nat
  value : Option Nat
  gas : Nat
  gas_used : Nat
  input : List Nat
  output : Option (List Nat)
  error : Option Nat
  logs : List Nat
deriving DecidableEq

instance : Inhabited FrameData :=
  ⟨⟨0, 0, none, none, 0, 0, [], none, none, []⟩⟩

/-- A call frame (CallFrame): its data plus the ordered list of child frames. -/
inductive CallFrame where
  | mk (data : FrameData) (calls : List CallFrame)

/-- Field projection: the non-recursive data of a frame. -/
def CallFrame.data : CallFrame → FrameData
  | .mk d _ => d

/-- Field projection: the child frames. -/
def CallFrame.calls : CallFrame → List CallFrame
  | .mk _ c => c

/-- Default::default() for CallFrame. -/
def emptyCallFrame : CallFrame := .mk default []

instance : Inhabited CallFrame := ⟨emptyCallFrame⟩

/-- calls.push(c) on a frame. -/
def CallFrame.pushCall (f : CallFrame) (c : CallFrame) : CallFrame :=
  .mk f.data (f.calls ++ [c])

/-- calls.insert(0, c) on a frame. -/
def CallFrame.consCall (f : CallFrame) (c : CallFrame) : CallFrame :=
  .mk f.data (c :: f.calls)

/-- gas_used assignment on a frame. -/
def CallFrame.withGasUsed (f : CallFrame) (g : Nat) : CallFrame :=
  .mk { f.data with gas_used := g } f.calls

@[simp] theorem CallFrame.data_mk (d : FrameData) (c : List CallFrame) :
    (CallFrame.mk d c).data = d := rfl

@[simp] theorem CallFrame.calls_mk (d : FrameData) (c : List CallFrame) :
    (CallFrame.mk d c).calls = c := rfl

/-- The synthetic frame kind used for destructive self-elimination frames; any
value distinct from the call kinds recorded on real nodes identifies them. -/
def selfdestructKind : Nat := 999

/-- Modelled from the spec: CallTraceNode::geth_empty_call_frame (not under
src/) builds an empty frame (no children yet) from the node's call metadata. -/
def geth_empty_call_frame (include_logs : Bool) (node : CallTraceNode) : CallFrame :=
  .mk
    { typ := node.trace.kind
      caller := node.trace.caller
      toAddr := some node.trace.address
      value := some node.trace.value
      gas := node.trace.gas_limit
      gas_used := node.trace.gas_used
      input := node.trace.data
      output := some node.trace.output
      error := if node.trace.success then none else some 1
      logs := if include_logs then node.trace.logs else [] }
    []

/-- Modelled from the spec: CallTraceNode::geth_selfdestruct_call_trace (not
under src/) yields a synthetic frame when the node performed a destructive
self-elimination not recorded as its own call node, and none otherwise. -/
def geth_selfdestruct_call_trace (node : CallTraceNode) : Option CallFrame :=
  if node.trace.selfdestruct then
    some (.mk
      { typ := selfdestructKind
        caller := node.trace.address
        toAddr := none
        value := some node.trace.value
        gas := 0
        gas_used := 0
        input := []
        output := none
        error := none
        logs := [] }
      [])
  else none

/-- last_mut access on a list: applies f to the last element if any. -/
def modifyLast {α : Type} (f : α → α) : List α → List α
  | [] => []
  | [x] => [f x]
  | x :: y :: rest => x :: modifyLast f (y :: rest)

/-- The first loop of geth_call_traces over the enumerated nodes from index 1:
push each node's selfdestruct frame (if any) onto the calls of the last frame
built so far, then push the node's own empty frame. -/
def buildLoop (include_logs : Bool) :
    List (Nat × CallTraceNode) → List (Nat × CallFrame) → List (Nat × CallFrame)
  | [], frames => frames
  | (idx, node) :: rest, frames =>
    let frames' :=
      match geth_selfdestruct_call_trace node with
      | some sd => modifyLast (fun p => (p.1, p.2.pushCall sd)) frames
      | none => frames
    buildLoop include_logs rest (frames' ++ [(idx, geth_empty_call_frame include_logs node)])

/-- The rollup loop of geth_call_traces, with explicit fuel (one unit per popped
frame; the caller passes length + 1 which is always enough). Panics of the
source (expect on an empty vector, out-of-bounds indexing, and the
debug_assert under debug-build semantics) are modelled as Except.error. -/
def rollupLoop (nodes : List CallTraceNode) :
    Nat → List (Nat × CallFrame) → Except String CallFrame
  | 0, _ => .error "fuel exhausted"
  | fuel + 1, frames =>
    match frames.getLast? with
    | none => .error "call frames not empty"
    | some (idx, call) =>
      let rest := frames.dropLast
      match nodes[idx]? with
      | none => .error "node index out of bounds"
      | some node =>
        match node.parent with
        | some parent =>
          match rest[parent]? with
          | none => .error "call frame index out of bounds"
          | some pf =>
            rollupLoop nodes fuel (rest.set parent (pf.1, pf.2.consCall call))
        | none =>
          if rest.isEmpty then .ok call
          else .error "only one root node has no parent"

/-- geth_call_traces: build the root frame (gas_used from the supplied total,
own selfdestruct appended), return it alone when only_top_call is set,
otherwise build one frame per node and roll children up into their parents. -/
def geth_call_traces (nodes : List CallTraceNode) (opts : CallConfig)
    (gas_used : Nat) : Except String CallFrame :=
  match nodes with
  | [] => .ok emptyCallFrame
  | main_trace_node :: _ =>
    let include_logs := opts.with_log.getD false
    let root0 := (geth_empty_call_frame include_logs main_trace_node).withGasUsed gas_used
    let root_call_frame :=
      match geth_selfdestruct_call_trace main_trace_node with
      | some sd => root0.pushCall sd
      | none => root0
    if opts.only_top_call.getD false then .ok root_call_frame
    else
      let call_frames := buildLoop include_logs (nodes.enum.drop 1) [(0, root_call_frame)]
      rollupLoop nodes (call_frames.length + 1) call_frames

/-- Parent reference of node i, none when i is out of range. -/
def parentOf (nodes : List CallTraceNode) (i : Nat) : Option Nat :=
  (nodes[i]?).bind (fun nd => nd.parent)

/-- The indices of the children of node j, in ascending order. -/
def childIndices (nodes : List CallTraceNode) (j : Nat) : List Nat :=
  (List.range nodes.length).filter
    (fun i => decide (j < i) && decide (parentOf nodes i = some j))

/-- The synthetic selfdestruct frame of node i, if any. -/
def sdFrameOf (nodes : List CallTraceNode) (i : Nat) : Option CallFrame :=
  (nodes[i]?).bind geth_selfdestruct_call_trace

/-- The empty frame built for node j, with the externally supplied gas total on
the root. -/
def baseFrame (nodes : List CallTraceNode) (include_logs : Bool) (gas : Nat)
    (j : Nat) : CallFrame :=
  let b :=
    match nodes[j]? with
    | some nd => geth_empty_call_frame include_logs nd
    | none => emptyCallFrame
  if j = 0 then b.withGasUsed gas else b

/-- The synthetic frames appended to node j's frame during the build phase: the
root's own selfdestruct frame first (root only), then the selfdestruct frame of
the next node in the arena (which the source pushes onto the last frame built
so far, i.e. the frame of node j, not the frame of that node's parent). -/
def sdTail (nodes : List CallTraceNode) (j : Nat) : List CallFrame :=
  (if j = 0 then (sdFrameOf nodes 0).toList else []) ++ (sdFrameOf nodes (j + 1)).toList

/-- Specification-side recursive assembly of the frame tree rooted at node j:
the children frames in ascending node-index order, then the synthetic tail. -/
def assembleSpec (nodes : List CallTraceNode) (include_logs : Bool) (gas : Nat)
    (j : Nat) : CallFrame :=
  .mk (baseFrame nodes include_logs gas j).data
    (((childIndices nodes j).attach.map
        (fun i => assembleSpec nodes include_logs gas i.1)) ++ sdTail nodes j)
termination_by nodes.length - j
decreasing_by
  have hmem := i.2
  simp only [childIndices, List.mem_filter, List.mem_range, Bool.and_eq_true,
    decide_eq_true_eq] at hmem
  omega

/-- The partially rolled-up frame of node j when all nodes of index above k have
already been popped and merged: children above k are fully assembled subtrees. -/
def partialFrame (nodes : List CallTraceNode) (include_logs : Bool) (gas : Nat)
    (k j : Nat) : CallFrame :=
  .mk (baseFrame nodes include_logs gas j).data
    ((((childIndices nodes j).filter (fun i => decide (k < i))).map
        (assembleSpec nodes include_logs gas)) ++ sdTail nodes j)

/-- The call_frames vector when entries 0..k remain, each partially rolled up. -/
def framesState (nodes : List CallTraceNode) (include_logs : Bool) (gas : Nat)
    (k : Nat) : List (Nat × CallFrame) :=
  (List.range (k + 1)).map (fun j => (j, partialFrame nodes include_logs gas k j))

/-- Well-formedness of the call tree arena as the spec states it: nonempty, the
root has no parent, and every other node's parent index is strictly smaller
than its own index. -/
def WfParents (nodes : List CallTraceNode) : Prop :=
  nodes ≠ [] ∧ parentOf nodes 0 = none ∧
  ∀ k, 0 < k → ∀ hk : k < nodes.length, ∃ p, parentOf nodes k = some p ∧ p < k

instance (nodes : List CallTraceNode) : Decidable (WfParents nodes) := by
  unfold WfParents
  have : Decidable (∀ k, 0 < k → ∀ hk : k < nodes.length,
      ∃ p, parentOf nodes k = some p ∧ p < k) :=
    @decidable_of_iff
      (∀ k, 0 < k → ∀ hk : k < nodes.length, ∃ p, parentOf nodes k = some p ∧ p < k)
      (∀ k, ∀ hk : k < nodes.length, 0 < k → ∃ p, parentOf nodes k = some p ∧ p < k)
      ⟨fun h k h1 h2 => h k h2 h1, fun h k h1 h2 => h k h2 h1⟩
      (Nat.decidableBallLT _ _)
  exact instDecidableAnd

/-! ## State snapshot / diff engine (geth_prestate_traces, diff_traces) -/

/-- Pre-execution account info as returned by the database (revm AccountInfo). -/
structure AccountInfo where
  balance : Nat
  nonce : Nat
  code_hash : Nat
  code : Option (List Nat)
deriving DecidableEq

/-- The well-known hash of empty code (KECCAK_EMPTY); its concrete value is an
external convention of the state accessor, fixed here as 0. -/
def KECCAK_EMPTY : Nat := 0

instance : Inhabited AccountInfo := ⟨⟨0, 0, KECCAK_EMPTY, none⟩⟩

/-- Modelled from the spec: revm AccountInfo::is_empty — the pre-execution
account was empty: no balance, no nonce, and no code (the code hash equals the
empty-code sentinel). -/
def AccountInfo.isEmptyAcc (a : AccountInfo) : Bool :=
  decide (a.balance = 0) && decide (a.nonce = 0) && decide (a.code_hash = KECCAK_EMPTY)

/-- One post-execution account delta (revm Account): the new info plus the
destroyed marker. -/
structure Account where
  info : AccountInfo
  is_destroyed : Bool
deriving DecidableEq

/-- The pre-execution state accessor (DatabaseRef): both lookups are fallible;
the error payload is modelled as Nat. -/
structure DatabaseRef where
  basic : Nat → Except Nat (Option AccountInfo)
  code_by_hash : Nat → Except Nat (List Nat)

/-- Prestate tracer configuration (PreStateConfig). -/
structure PreStateConfig where
  diff_mode : Option Bool
deriving DecidableEq

/-- PreStateConfig::is_diff_mode. -/
def PreStateConfig.is_diff_mode (c : PreStateConfig) : Bool :=
  c.diff_mode.getD false

/-- The two trimmed mappings of the diff output (DiffMode). -/
structure DiffMode where
  pre : List (Nat × AccountState)
  post : List (Nat × AccountState)
deriving DecidableEq

/-- The prestate tracer output (PreStateFrame). -/
inductive PreStateFrame where
  | Default (prestate : List (Nat × AccountState))
  | Diff (diff : DiffMode)
deriving DecidableEq

/-- Modelled from the spec: CallTraceNode::geth_update_account_storage (not
under src/): walk the node's steps; for each step carrying a storage mutation,
record the pre-mutation or post-mutation value (selected by post_value) of that
slot into the executing contract's entry of the mapping, creating the entry if
necessary. -/
def geth_update_account_storage (node : CallTraceNode) (post_value : Bool)
    (account_states : List (Nat × AccountState)) : List (Nat × AccountState) :=
  node.trace.steps.foldl
    (fun m step =>
      match step.storage_change with
      | some change =>
        let entry := (alookup step.contract m).getD default
        let stor := alInsert change.key
          (if post_value then change.value else change.had_value)
          (entry.storage.getD [])
        alInsert step.contract { entry with storage := some stor } m
      | none => m)
    account_states

/-- update_storage_from_trace_prestate_mode: apply the storage enrichment of
every node in arena order. -/
def update_storage_from_trace_prestate_mode (nodes : List CallTraceNode)
    (account_states : List (Nat × AccountState)) (post_value : Bool) :
    List (Nat × AccountState) :=
  nodes.foldl (fun m node => geth_update_account_storage node post_value m) account_states

/-- update_storage_from_trace_diff_mode: the source dispatches to a diff-mode
variant of the per-node update; the spec describes the same enrichment for both
modes, so the same modelled update is applied per node. -/
def update_storage_from_trace_diff_mode (nodes : List CallTraceNode)
    (account_states : List (Nat × AccountState)) (post_value : Bool) :
    List (Nat × AccountState) :=
  nodes.foldl (fun m node => geth_update_account_storage node post_value m) account_states

/-- Storage trimming used by diff_traces on one entry: drop the storage slots
whose value is zero, and drop the storage field entirely when nothing is left. -/
def stripEntryStorage (s : AccountState) : AccountState :=
  let stor := (s.storage.getD []).filter (fun kv => decide (kv.2 ≠ 0))
  { s with storage := if 0 < stor.length then some stor else none }

/-- diff_traces: trim the enriched pre and post mappings into the diff output.
The pre pass keeps entries that are not Create-classified and differ from the
post side, stripping zero storage; the post pass skips Destroy-classified
entries and entries identical to the pre side, nulls the unchanged balance,
nonce and code fields, and strips zero storage. -/
def diff_traces (pre post : List (Nat × AccountState)) : DiffMode :=
  let outPre := pre.foldl
    (fun acc ap =>
      let post_state := (alookup ap.1 post).getD default
      if ap.2.change_type ≠ ChangeType.Create ∧ ap.2 ≠ post_state then
        alInsert ap.1 (stripEntryStorage ap.2) acc
      else acc)
    []
  let outPost := post.foldl
    (fun acc ap =>
      let pre_state := (alookup ap.1 pre).getD default
      if ap.2.change_type = ChangeType.Destroy ∨ pre_state = ap.2 then acc
      else
        let post_clone : AccountState :=
          { ap.2 with
            balance := if pre_state.balance = ap.2.balance then none else ap.2.balance
            nonce := if pre_state.nonce = ap.2.nonce then none else ap.2.nonce
            code := if pre_state.code = ap.2.code then none else ap.2.code }
        alInsert ap.1 (stripEntryStorage post_clone) acc)
    []
  { pre := outPre, post := outPost }

/-- The prestate-mode loop of geth_prestate_traces over the collected account
diffs: each address is looked up in the database (failures propagate), missing
accounts default, and the snapshot entry always carries balance, nonce and code
with Modify classification. -/
def prestateLoop (db : DatabaseRef) :
    List (Nat × Account) → List (Nat × AccountState) →
    Except Nat (List (Nat × AccountState))
  | [], acc => .ok acc
  | (addr, _) :: rest, acc =>
    match db.basic addr with
    | .error e => .error e
    | .ok v =>
      let db_acc := v.getD default
      prestateLoop db rest
        (alInsert addr
          { balance := some db_acc.balance
            nonce := some db_acc.nonce
            code := db_acc.code
            storage := none
            change_type := ChangeType.Modify }
          acc)

/-- The diff-mode loop of geth_prestate_traces: build the pre entry (code
resolved from the database, falling back to a code-by-hash lookup whose failure
is discarded by ok(); Create when the pre-execution account was empty) and the
post entry (from the delta; Destroy when the delta marks destruction), and
insert both. -/
def diffLoop (db : DatabaseRef) :
    List (Nat × Account) →
    List (Nat × AccountState) → List (Nat × AccountState) →
    Except Nat (List (Nat × AccountState) × List (Nat × AccountState))
  | [], pre, post => .ok (pre, post)
  | (addr, changed_acc) :: rest, pre, post =>
    match db.basic addr with
    | .error e => .error e
    | .ok v =>
      let db_acc := v.getD default
      let db_code := db_acc.code
      let db_code_hash := db_acc.code_hash
      let pre_code :=
        match db_code with
        | some code => some code
        | none =>
          if db_code_hash = KECCAK_EMPTY then none
          else (db.code_by_hash db_code_hash).toOption
      let pre_state : AccountState :=
        { balance := some db_acc.balance
          nonce := some db_acc.nonce
          code := pre_code.filter (fun code => !code.isEmpty)
          storage := none
          change_type := if db_acc.isEmptyAcc then ChangeType.Create else ChangeType.Modify }
      let post_state : AccountState :=
        { balance := some changed_acc.info.balance
          nonce := some changed_acc.info.nonce
          code := (changed_acc.info.code.filter (fun code => !code.isEmpty))
          storage := none
          change_type := if changed_acc.is_destroyed then ChangeType.Destroy else ChangeType.Modify }
      diffLoop db rest (alInsert addr pre_state pre) (alInsert addr post_state post)

/-- geth_prestate_traces: the snapshot / diff engine. The post-execution state
map is supplied as an already-collected association list of account diffs. -/
def geth_prestate_traces (nodes : List CallTraceNode)
    (state : List (Nat × Account)) (prestate_config : PreStateConfig)
    (db : DatabaseRef) : Except Nat PreStateFrame :=
  let account_diffs := state
  if !prestate_config.is_diff_mode then
    match prestateLoop db account_diffs [] with
    | .error e => .error e
    | .ok prestate =>
      .ok (PreStateFrame.Default
        (update_storage_from_trace_prestate_mode nodes prestate false))
  else
    match diffLoop db account_diffs [] [] with
    | .error e => .error e
    | .ok pp =>
      let pre := update_storage_from_trace_diff_mode nodes pp.1 false
      let post := update_storage_from_trace_diff_mode nodes pp.2 true
      .ok (PreStateFrame.Diff (diff_traces pre post))

/-! ## Association-list lemmas -/

theorem alookup_alInsert {α : Type} (k a : Nat) (v : α) (l : List (Nat × α)) :
    alookup a (alInsert k v l) = if a = k then some v else alookup a l := by
  induction l with
  | nil => by_cases h : a = k <;> simp [alInsert, alookup, h]
  | cons hd tl ih =>
    obtain ⟨k', v'⟩ := hd
    by_cases hk : k = k' <;> by_cases ha : a = k' <;> by_cases hak : a = k <;>
      simp_all [alInsert, alookup]

theorem alookup_eq_of_mem_nodup {α : Type} (l : List (Nat × α)) (a : Nat) (v w : α)
    (hnd : (l.map Prod.fst).Nodup) (hl : alookup a l = some v) (hm : (a, w) ∈ l) :
    w = v := by
  induction l with
  | nil => cases hm
  | cons hd tl ih =>
    obtain ⟨k', v'⟩ := hd
    simp only [List.map_cons, List.nodup_cons] at hnd
    rcases List.mem_cons.1 hm with heq | hm'
    · cases heq
      simpa [alookup] using hl
    · have hak : a ≠ k' := by
        intro h
        subst h
        exact hnd.1 (List.mem_map.2 ⟨(a, w), hm', rfl⟩)
      rw [alookup, if_neg hak] at hl
      exact ih hnd.2 hl hm'

/-- Every binding found in the result of a conditional-insert fold comes either
from the initial accumulator or from a kept element of the list. -/
theorem alookup_foldl_keep {α : Type}
    (step : List (Nat × α) → (Nat × α) → List (Nat × α))
    (keep : Nat × α → Bool) (g : Nat × α → α)
    (hstep : ∀ acc ap, step acc ap = if keep ap then alInsert ap.1 (g ap) acc else acc)
    (l acc : List (Nat × α)) (a : Nat) (v : α)
    (h : alookup a (l.foldl step acc) = some v) :
    alookup a acc = some v ∨ ∃ ap ∈ l, ap.1 = a ∧ keep ap = true ∧ v = g ap := by
  induction l generalizing acc with
  | nil => exact Or.inl h
  | cons hd tl ih =>
    simp only [List.foldl_cons] at h
    rcases ih _ h with h' | ⟨ap, hmem, ha, hk, hv⟩
    · rw [hstep] at h'
      by_cases hk : keep hd = true
      · rw [if_pos hk, alookup_alInsert] at h'
        by_cases ha : a = hd.1
        · right
          rw [if_pos ha] at h'
          exact ⟨hd, List.mem_cons_self _ _, ha.symm, hk, (Option.some.inj h').symm⟩
        · left
          rwa [if_neg ha] at h'
      · rw [if_neg hk] at h'
        exact Or.inl h'
    · exact Or.inr ⟨ap, List.mem_cons_of_mem _ hmem, ha, hk, hv⟩

/-- A conditional-insert fold does not touch keys that do not occur in the
list. -/
theorem alookup_foldl_preserved {α : Type}
    (step : List (Nat × α) → (Nat × α) → List (Nat × α))
    (keep : Nat × α → Bool) (g : Nat × α → α)
    (hstep : ∀ acc ap, step acc ap = if keep ap then alInsert ap.1 (g ap) acc else acc)
    (l acc : List (Nat × α)) (a : Nat)
    (hna : ∀ ap ∈ l, ap.1 ≠ a) :
    alookup a (l.foldl step acc) = alookup a acc := by
  induction l generalizing acc with
  | nil => rfl
  | cons hd tl ih =>
    rw [List.foldl_cons, ih _ (fun ap h => hna ap (List.mem_cons_of_mem _ h))]
    rw [hstep]
    by_cases hk : keep hd = true
    · rw [if_pos hk, alookup_alInsert,
        if_neg (fun h => hna hd (List.mem_cons_self _ _) h.symm)]
    · rw [if_neg hk]

/-- A kept element of a key-nodup list is found in the fold's result with its
transformed value. -/
theorem alookup_foldl_keep_mem {α : Type}
    (step : List (Nat × α) → (Nat × α) → List (Nat × α))
    (keep : Nat × α → Bool) (g : Nat × α → α)
    (hstep : ∀ acc ap, step acc ap = if keep ap then alInsert ap.1 (g ap) acc else acc)
    (l acc : List (Nat × α)) (a : Nat) (v : α)
    (hnd : (l.map Prod.fst).Nodup) (hmem : (a, v) ∈ l) (hk : keep (a, v) = true) :
    alookup a (l.foldl step acc) = some (g (a, v)) := by
  induction l generalizing acc with
  | nil => cases hmem
  | cons hd tl ih =>
    simp only [List.map_cons, List.nodup_cons] at hnd
    rcases List.mem_cons.1 hmem with heq | hmem'
    · subst heq
      rw [List.foldl_cons]
      rw [alookup_foldl_preserved step keep g hstep _ _ _ ?_]
      · rw [hstep, if_pos hk, alookup_alInsert, if_pos rfl]
      · intro ap hap h
        exact hnd.1 (List.mem_map.2 ⟨ap, hap, h⟩)
    · rw [List.foldl_cons]
      exact ih _ hnd.2 hmem'

theorem mem_of_alookup {α : Type} (l : List (Nat × α)) (a : Nat) (v : α)
    (h : alookup a l = some v) : (a, v) ∈ l := by
  induction l with
  | nil => cases h
  | cons hd tl ih =>
    obtain ⟨k', v'⟩ := hd
    rw [alookup] at h
    by_cases ha : a = k'
    · rw [if_pos ha] at h
      cases h
      cases ha
      exact List.mem_cons_self _ _
    · rw [if_neg ha] at h
      exact List.mem_cons_of_mem _ (ih h)

/-! ## The two trimming passes of diff_traces as conditional-insert folds -/

/-- The loop body of the pre pass of diff_traces. -/
def stepPre (post : List (Nat × AccountState))
    (acc : List (Nat × AccountState)) (ap : Nat × AccountState) :
    List (Nat × AccountState) :=
  let post_state := (alookup ap.1 post).getD default
  if ap.2.change_type ≠ ChangeType.Create ∧ ap.2 ≠ post_state then
    alInsert ap.1 (stripEntryStorage ap.2) acc
  else acc

/-- The loop body of the post pass of diff_traces. -/
def stepPost (pre : List (Nat × AccountState))
    (acc : List (Nat × AccountState)) (ap : Nat × AccountState) :
    List (Nat × AccountState) :=
  let pre_state := (alookup ap.1 pre).getD default
  if ap.2.change_type = ChangeType.Destroy ∨ pre_state = ap.2 then acc
  else
    let post_clone : AccountState :=
      { ap.2 with
        balance := if pre_state.balance = ap.2.balance then none else ap.2.balance
        nonce := if pre_state.nonce = ap.2.nonce then none else ap.2.nonce
        code := if pre_state.code = ap.2.code then none else ap.2.code }
    alInsert ap.1 (stripEntryStorage post_clone) acc

/-- Keep condition of the pre pass. -/
def keepPre (post : List (Nat × AccountState)) (ap : Nat × AccountState) : Bool :=
  decide (ap.2.change_type ≠ ChangeType.Create ∧ ap.2 ≠ (alookup ap.1 post).getD default)

/-- Inserted value of the pre pass. -/
def gPre (ap : Nat × AccountState) : AccountState := stripEntryStorage ap.2

/-- Keep condition of the post pass. -/
def keepPost (pre : List (Nat × AccountState)) (ap : Nat × AccountState) : Bool :=
  decide (¬ (ap.2.change_type = ChangeType.Destroy ∨ (alookup ap.1 pre).getD default = ap.2))

/-- Inserted value of the post pass. -/
def gPost (pre : List (Nat × AccountState)) (ap : Nat × AccountState) : AccountState :=
  stripEntryStorage
    { ap.2 with
      balance := if ((alookup ap.1 pre).getD default).balance = ap.2.balance then none else ap.2.balance
      nonce := if ((alookup ap.1 pre).getD default).nonce = ap.2.nonce then none else ap.2.nonce
      code := if ((alookup ap.1 pre).getD default).code = ap.2.code then none else ap.2.code }

theorem stepPre_eq (post : List (Nat × AccountState)) :
    ∀ acc ap, stepPre post acc ap =
      if keepPre post ap then alInsert ap.1 (gPre ap) acc else acc := by
  intro acc ap
  unfold stepPre keepPre gPre
  by_cases h : ap.2.change_type ≠ ChangeType.Create ∧ ap.2 ≠ (alookup ap.1 post).getD default <;>
    simp [h]

theorem stepPost_eq (pre : List (Nat × AccountState)) :
    ∀ acc ap, stepPost pre acc ap =
      if keepPost pre ap then alInsert ap.1 (gPost pre ap) acc else acc := by
  intro acc ap
  unfold stepPost keepPost gPost
  by_cases h : ap.2.change_type = ChangeType.Destroy ∨ (alookup ap.1 pre).getD default = ap.2 <;>
    simp [h]

theorem diff_traces_pre (pre post : List (Nat × AccountState)) :
    (diff_traces pre post).pre = pre.foldl (stepPre post) [] := rfl

theorem diff_traces_post (pre post : List (Nat × AccountState)) :
    (diff_traces pre post).post = post.foldl (stepPost pre) [] := rfl

/-- Every entry of either trimming pass is a stripped entry. -/
theorem stripEntryStorage_no_zero (x : AccountState) :
    (∀ kv ∈ ((stripEntryStorage x).storage.getD ([] : List (Nat × Nat))), kv.2 ≠ 0) ∧
    (stripEntryStorage x).storage ≠ some [] := by
  unfold stripEntryStorage
  by_cases h : 0 < ((x.storage.getD []).filter (fun kv => decide (kv.2 ≠ 0))).length
  · constructor
    · intro kv hkv
      simp only [if_pos h] at hkv
      simp only [Option.getD_some] at hkv
      exact of_decide_eq_true (List.mem_filter.1 hkv).2
    · simp only [if_pos h]
      intro hcon
      rw [Option.some.injEq] at hcon
      rw [hcon] at h
      simp at h
  · constructor
    · intro kv hkv
      simp only [if_neg h] at hkv
      simp at hkv
    · simp only [if_neg h]
      simp

/-! ## Claims about diff_traces -/

/-- C6: for every input, an address whose post-state classification is Destroy
never appears in the post mapping of the diff output, and an address whose
pre-state classification is Create never appears in the pre mapping of the
diff output. The key-nodup hypotheses express that the enriched pre and post
inputs are maps (BTreeMap in the source). -/
theorem c6_diff_exclusions (pre post : List (Nat × AccountState)) (a : Nat)
    (hprend : (pre.map Prod.fst).Nodup) (hpostnd : (post.map Prod.fst).Nodup) :
    (∀ st, alookup a post = some st → st.change_type = ChangeType.Destroy →
        alookup a (diff_traces pre post).post = none) ∧
    (∀ st, alookup a pre = some st → st.change_type = ChangeType.Create →
        alookup a (diff_traces pre post).pre = none) := by
  constructor
  · intro st hst hdes
    cases hout : alookup a (diff_traces pre post).post with
    | none => rfl
    | some v =>
      exfalso
      rw [diff_traces_post] at hout
      rcases alookup_foldl_keep (stepPost pre) (keepPost pre) (gPost pre)
          (stepPost_eq pre) post [] a v hout with h | ⟨ap, hmem, ha, hk, hv⟩
      · cases h
      · obtain ⟨k, w⟩ := ap
        have hmem' : (a, w) ∈ post := ha ▸ hmem
        have hw : w = st := alookup_eq_of_mem_nodup post a st w hpostnd hst hmem'
        subst hw
        unfold keepPost at hk
        rw [decide_eq_true_eq] at hk
        exact hk (Or.inl hdes)
  · intro st hst hcre
    cases hout : alookup a (diff_traces pre post).pre with
    | none => rfl
    | some v =>
      exfalso
      rw [diff_traces_pre] at hout
      rcases alookup_foldl_keep (stepPre post) (keepPre post) gPre
          (stepPre_eq post) pre [] a v hout with h | ⟨ap, hmem, ha, hk, hv⟩
      · cases h
      · obtain ⟨k, w⟩ := ap
        have hmem' : (a, w) ∈ pre := ha ▸ hmem
        have hw : w = st := alookup_eq_of_mem_nodup pre a st w hprend hst hmem'
        subst hw
        unfold keepPre at hk
        rw [decide_eq_true_eq] at hk
        exact hk.1 hcre

/-- Fixture for the C6 witness: a post map with one destroyed entry and a pre
map with one created entry. -/
def c6post : List (Nat × AccountState) :=
  [(1, { balance := some 1, nonce := some 0, code := none, storage := none,
         change_type := ChangeType.Destroy })]

/-- Fixture for the C6 witness (pre side). -/
def c6pre : List (Nat × AccountState) :=
  [(2, { balance := some 0, nonce := some 0, code := none, storage := none,
         change_type := ChangeType.Create })]

theorem c6_witness :
    alookup 1 (diff_traces c6pre c6post).post = none ∧
    alookup 2 (diff_traces c6pre c6post).pre = none := by
  constructor
  · exact (c6_diff_exclusions c6pre c6post 1 (by decide) (by decide)).1
      { balance := some 1, nonce := some 0, code := none, storage := none,
        change_type := ChangeType.Destroy } (by decide) rfl
  · exact (c6_diff_exclusions c6pre c6post 2 (by decide) (by decide)).2
      { balance := some 0, nonce := some 0, code := none, storage := none,
        change_type := ChangeType.Create } (by decide) rfl

/-- C8: every account-state entry of the diff output, in the pre mapping or the
post mapping, carries no zero-valued storage slot, and its storage field is
absent rather than present-but-empty. -/
theorem c8_zero_storage_invariant (pre post : List (Nat × AccountState))
    (a : Nat) (st : AccountState)
    (h : alookup a (diff_traces pre post).pre = some st ∨
         alookup a (diff_traces pre post).post = some st) :
    (∀ kv ∈ (st.storage.getD ([] : List (Nat × Nat))), kv.2 ≠ 0) ∧
    st.storage ≠ some [] := by
  have hst : ∃ x, st = stripEntryStorage x := by
    rcases h with h | h
    · rw [diff_traces_pre] at h
      rcases alookup_foldl_keep (stepPre post) (keepPre post) gPre
          (stepPre_eq post) pre [] a st h with h' | ⟨ap, _, _, _, hv⟩
      · cases h'
      · exact ⟨ap.2, hv⟩
    · rw [diff_traces_post] at h
      rcases alookup_foldl_keep (stepPost pre) (keepPost pre) (gPost pre)
          (stepPost_eq pre) post [] a st h with h' | ⟨ap, _, _, _, hv⟩
      · cases h'
      · exact ⟨_, hv⟩
  obtain ⟨x, rfl⟩ := hst
  exact stripEntryStorage_no_zero x

/-- Fixtures for the C8 witness: an address changed in balance whose enriched
storage carries one zero slot that must be stripped. -/
def c8pre : List (Nat × AccountState) :=
  [(1, { balance := some 1, nonce := some 0, code := none,
         storage := some [(2, 3), (4, 0)], change_type := ChangeType.Modify })]

/-- Fixture: post side for the C8 witness. -/
def c8post : List (Nat × AccountState) :=
  [(1, { balance := some 2, nonce := some 0, code := none,
         storage := some [(2, 3), (4, 0)], change_type := ChangeType.Modify })]

/-- Fixture: the pre entry the diff output holds for address 1 of c8pre. -/
def c8out : AccountState :=
  { balance := some 1, nonce := some 0, code := none,
    storage := some [(2, 3)], change_type := ChangeType.Modify }

theorem c8_witness :
    alookup 1 (diff_traces c8pre c8post).pre = some c8out ∧ c8out.storage ≠ some [] :=
  ⟨by decide, (c8_zero_storage_invariant c8pre c8post 1 c8out (Or.inl (by decide))).2⟩

/-- Fixture for C7: the pre entry of an address that changed solely in storage. -/
def c7entryPre : AccountState :=
  { balance := some 5, nonce := some 1, code := none,
    storage := some [(2, 3)], change_type := ChangeType.Modify }

/-- Fixture for C7: the post entry, identical except for the storage value. -/
def c7entryPost : AccountState :=
  { balance := some 5, nonce := some 1, code := none,
    storage := some [(2, 4)], change_type := ChangeType.Modify }

/-- Fixture for C7: the enriched pre mapping. -/
def c7pre : List (Nat × AccountState) := [(1, c7entryPre)]

/-- Fixture for C7: the enriched post mapping. -/
def c7post : List (Nat × AccountState) := [(1, c7entryPost)]

/-- C7 counterexample: address 1 of c7pre/c7post changed solely in storage
(balance, nonce and code agree; storage differs), yet the diff output's pre
entry for it still carries its balance (some 5, not none), so the pre entry
does not consist of only a storage field as the claim states. -/
theorem c7_counterexample :
    c7entryPre.balance = c7entryPost.balance ∧
    c7entryPre.nonce = c7entryPost.nonce ∧
    c7entryPre.code = c7entryPost.code ∧
    c7entryPre.storage ≠ c7entryPost.storage ∧
    (alookup 1 (diff_traces c7pre c7post).pre).map AccountState.balance = some (some 5) := by
  decide

/-- C7 (amended): for an address kept in both sides of the diff (classification
not Create on the pre side and not Destroy on the post side) whose balance,
nonce and code agree while its storage differs, the post entry of the diff
output contains only a storage field (balance, nonce and code nulled, storage
stripped of zero slots), while the pre entry keeps its balance, nonce and code
and only has its storage stripped. -/
theorem c7_amended (pre post : List (Nat × AccountState)) (a : Nat)
    (ps qs : AccountState)
    (hprend : (pre.map Prod.fst).Nodup) (hpostnd : (post.map Prod.fst).Nodup)
    (hps : alookup a pre = some ps) (hqs : alookup a post = some qs)
    (hb : ps.balance = qs.balance) (hn : ps.nonce = qs.nonce)
    (hc : ps.code = qs.code) (hs : ps.storage ≠ qs.storage)
    (hcr : ps.change_type ≠ ChangeType.Create)
    (hds : qs.change_type ≠ ChangeType.Destroy) :
    alookup a (diff_traces pre post).pre = some (stripEntryStorage ps) ∧
    alookup a (diff_traces pre post).post =
      some (stripEntryStorage
        { qs with balance := none, nonce := none, code := none }) := by
  have hpq : ps ≠ qs := fun h => hs (congrArg AccountState.storage h)
  constructor
  · rw [diff_traces_pre]
    have hkeep : keepPre post (a, ps) = true := by
      unfold keepPre
      rw [decide_eq_true_eq]
      refine ⟨hcr, ?_⟩
      rw [hqs]
      exact hpq
    have := alookup_foldl_keep_mem (stepPre post) (keepPre post) gPre
      (stepPre_eq post) pre [] a ps hprend (mem_of_alookup pre a ps hps) hkeep
    rw [this]
    rfl
  · rw [diff_traces_post]
    have hkeep : keepPost pre (a, qs) = true := by
      unfold keepPost
      rw [decide_eq_true_eq]
      intro hcon
      rcases hcon with hcon | hcon
      · exact hds hcon
      · rw [hps] at hcon
        exact hpq hcon
    have := alookup_foldl_keep_mem (stepPost pre) (keepPost pre) (gPost pre)
      (stepPost_eq pre) post [] a qs hpostnd (mem_of_alookup post a qs hqs) hkeep
    rw [this]
    unfold gPost
    simp only [hps, Option.getD_some, hb, hn, hc, if_pos rfl]
    simp

theorem c7_witness :
    alookup 1 (diff_traces c7pre c7post).pre = some (stripEntryStorage c7entryPre) ∧
    alookup 1 (diff_traces c7pre c7post).post =
      some (stripEntryStorage
        { c7entryPost with balance := none, nonce := none, code := none }) :=
  c7_amended c7pre c7post 1 c7entryPre c7entryPost (by decide) (by decide)
    (by decide) (by decide) (by decide) (by decide) (by decide) (by decide)
    (by decide) (by decide)

/-! ## Claim C4: failure behaviour of the snapshot / diff engine -/

theorem prestateLoop_ok (db : DatabaseRef) (l : List (Nat × Account))
    (acc : List (Nat × AccountState))
    (h : ∀ ap ∈ l, (db.basic ap.1).isOk = true) :
    ∃ r, prestateLoop db l acc = .ok r := by
  induction l generalizing acc with
  | nil => exact ⟨acc, rfl⟩
  | cons hd tl ih =>
    obtain ⟨addr, acct⟩ := hd
    have hh := h _ (List.mem_cons_self _ _)
    cases hb : db.basic addr with
    | error e =>
      rw [hb] at hh
      simp [Except.isOk, Except.toBool] at hh
    | ok v =>
      simp only [prestateLoop, hb]
      exact ih _ (fun ap hap => h ap (List.mem_cons_of_mem _ hap))

theorem prestateLoop_err (db : DatabaseRef) (l : List (Nat × Account))
    (acc : List (Nat × AccountState)) (e : Nat)
    (h : prestateLoop db l acc = .error e) :
    ∃ ap ∈ l, db.basic ap.1 = .error e := by
  induction l generalizing acc with
  | nil => cases h
  | cons hd tl ih =>
    obtain ⟨addr, acct⟩ := hd
    cases hb : db.basic addr with
    | error e' =>
      simp only [prestateLoop, hb] at h
      cases h
      exact ⟨(addr, acct), List.mem_cons_self _ _, hb⟩
    | ok v =>
      simp only [prestateLoop, hb] at h
      obtain ⟨ap, hap, hfail⟩ := ih _ h
      exact ⟨ap, List.mem_cons_of_mem _ hap, hfail⟩

theorem prestateLoop_err_exists (db : DatabaseRef) (l : List (Nat × Account))
    (acc : List (Nat × AccountState))
    (h : ∃ ap ∈ l, (db.basic ap.1).isOk = false) :
    ∃ e, prestateLoop db l acc = .error e := by
  induction l generalizing acc with
  | nil =>
    obtain ⟨ap, hap, _⟩ := h
    cases hap
  | cons hd tl ih =>
    obtain ⟨addr, acct⟩ := hd
    cases hb : db.basic addr with
    | error e => exact ⟨e, by simp only [prestateLoop, hb]⟩
    | ok v =>
      simp only [prestateLoop, hb]
      refine ih _ ?_
      obtain ⟨ap, hap, hfail⟩ := h
      rcases List.mem_cons.1 hap with heq | hmem
      · exfalso
        subst heq
        rw [hb] at hfail
        simp [Except.isOk, Except.toBool] at hfail
      · exact ⟨ap, hmem, hfail⟩

theorem diffLoop_ok (db : DatabaseRef) (l : List (Nat × Account))
    (pre post : List (Nat × AccountState))
    (h : ∀ ap ∈ l, (db.basic ap.1).isOk = true) :
    ∃ r, diffLoop db l pre post = .ok r := by
  induction l generalizing pre post with
  | nil => exact ⟨(pre, post), rfl⟩
  | cons hd tl ih =>
    obtain ⟨addr, acct⟩ := hd
    have hh := h _ (List.mem_cons_self _ _)
    cases hb : db.basic addr with
    | error e =>
      rw [hb] at hh
      simp [Except.isOk, Except.toBool] at hh
    | ok v =>
      simp only [diffLoop, hb]
      exact ih _ _ (fun ap hap => h ap (List.mem_cons_of_mem _ hap))

theorem diffLoop_err (db : DatabaseRef) (l : List (Nat × Account))
    (pre post : List (Nat × AccountState)) (e : Nat)
    (h : diffLoop db l pre post = .error e) :
    ∃ ap ∈ l, db.basic ap.1 = .error e := by
  induction l generalizing pre post with
  | nil => cases h
  | cons hd tl ih =>
    obtain ⟨addr, acct⟩ := hd
    cases hb : db.basic addr with
    | error e' =>
      simp only [diffLoop, hb] at h
      cases h
      exact ⟨(addr, acct), List.mem_cons_self _ _, hb⟩
    | ok v =>
      simp only [diffLoop, hb] at h
      obtain ⟨ap, hap, hfail⟩ := ih _ _ h
      exact ⟨ap, List.mem_cons_of_mem _ hap, hfail⟩

theorem diffLoop_err_exists (db : DatabaseRef) (l : List (Nat × Account))
    (pre post : List (Nat × AccountState))
    (h : ∃ ap ∈ l, (db.basic ap.1).isOk = false) :
    ∃ e, diffLoop db l pre post = .error e := by
  induction l generalizing pre post with
  | nil =>
    obtain ⟨ap, hap, _⟩ := h
    cases hap
  | cons hd tl ih =>
    obtain ⟨addr, acct⟩ := hd
    cases hb : db.basic addr with
    | error e => exact ⟨e, by simp only [diffLoop, hb]⟩
    | ok v =>
      simp only [diffLoop, hb]
      refine ih _ _ ?_
      obtain ⟨ap, hap, hfail⟩ := h
      rcases List.mem_cons.1 hap with heq | hmem
      · exfalso
        subst heq
        rw [hb] at hfail
        simp [Except.isOk, Except.toBool] at hfail
      · exact ⟨ap, hmem, hfail⟩

/-- Fixture for C4: a database whose code-by-hash lookup always fails while the
basic lookup always succeeds, returning an account whose code must be resolved
by hash (code absent, code hash 7 distinct from the empty-code sentinel). -/
def exDb : DatabaseRef :=
  { basic := fun _ => .ok (some { balance := 5, nonce := 0, code_hash := 7, code := none })
    code_by_hash := fun _ => .error 42 }

/-- Fixture for C4: one changed account at address 1. -/
def exDiffState : List (Nat × Account) :=
  [(1, { info := { balance := 6, nonce := 1, code_hash := 7, code := none },
         is_destroyed := false })]

/-- Fixture for C4: diff-mode configuration. -/
def exDiffConfig : PreStateConfig := { diff_mode := some true }

/-- C4 counterexample: every code-by-hash lookup of exDb fails (and the hash 7
of the account at address 1 is actually resolved through code_by_hash, since
the basic lookup returns no direct code and the hash is not the empty-code
sentinel), yet the engine returns Ok, refuting the claim that the engine
returns an error if and only if one of the two accessor lookups
(basic-by-address or code-by-hash) fails. -/
theorem c4_counterexample :
    exDb.code_by_hash 7 = .error 42 ∧
    exDb.basic 1 = .ok (some { balance := 5, nonce := 0, code_hash := 7, code := none }) ∧
    (geth_prestate_traces [] exDiffState exDiffConfig exDb).isOk = true := by
  exact ⟨rfl, rfl, rfl⟩

/-- C4 (amended): the engine returns an error if and only if one of the
basic-by-address lookups fails; the failing lookup's error is propagated
unmodified; code-by-hash failures are swallowed by ok() and treated as absent
code, and no other operation is fallible. -/
theorem c4_amended (nodes : List CallTraceNode) (state : List (Nat × Account))
    (prestate_config : PreStateConfig) (db : DatabaseRef) :
    ((∀ ap ∈ state, (db.basic ap.1).isOk = true) →
      ∃ f, geth_prestate_traces nodes state prestate_config db = .ok f) ∧
    ((∃ ap ∈ state, (db.basic ap.1).isOk = false) →
      ∃ e, geth_prestate_traces nodes state prestate_config db = .error e) ∧
    (∀ e, geth_prestate_traces nodes state prestate_config db = .error e →
      ∃ ap ∈ state, db.basic ap.1 = .error e) := by
  refine ⟨?_, ?_, ?_⟩
  · intro h
    unfold geth_prestate_traces
    by_cases hm : prestate_config.is_diff_mode = true
    · simp only [hm, Bool.not_true, Bool.false_eq_true, if_false]
      obtain ⟨r, hr⟩ := diffLoop_ok db state [] [] h
      rw [hr]
      exact ⟨_, rfl⟩
    · rw [Bool.not_eq_true] at hm
      simp only [hm, Bool.not_false, if_true]
      obtain ⟨r, hr⟩ := prestateLoop_ok db state [] h
      rw [hr]
      exact ⟨_, rfl⟩
  · intro h
    unfold geth_prestate_traces
    by_cases hm : prestate_config.is_diff_mode = true
    · simp only [hm, Bool.not_true, Bool.false_eq_true, if_false]
      obtain ⟨e, he⟩ := diffLoop_err_exists db state [] [] h
      rw [he]
      exact ⟨e, rfl⟩
    · rw [Bool.not_eq_true] at hm
      simp only [hm, Bool.not_false, if_true]
      obtain ⟨e, he⟩ := prestateLoop_err_exists db state [] h
      rw [he]
      exact ⟨e, rfl⟩
  · intro e he
    unfold geth_prestate_traces at he
    by_cases hm : prestate_config.is_diff_mode = true
    · simp only [hm, Bool.not_true, Bool.false_eq_true, if_false] at he
      cases hl : diffLoop db state [] [] with
      | error e' =>
        rw [hl] at he
        cases he
        exact diffLoop_err db state [] [] e hl
      | ok r =>
        rw [hl] at he
        cases he
    · rw [Bool.not_eq_true] at hm
      simp only [hm, Bool.not_false, if_true] at he
      cases hl : prestateLoop db state [] with
      | error e' =>
        rw [hl] at he
        cases he
        exact prestateLoop_err db state [] e hl
      | ok r =>
        rw [hl] at he
        cases he

theorem c4_witness :
    ∃ f, geth_prestate_traces [] exDiffState exDiffConfig exDb = .ok f :=
  (c4_amended [] exDiffState exDiffConfig exDb).1 (by decide)

/-! ## Claims C9 and C10: empty input and the step-log envelope -/

/-- C9: an empty call tree yields the default step-log envelope from geth_traces
and the default call frame from geth_call_traces, for every configuration,
without error. -/
theorem c9_empty_input (receipt_gas_used : Nat) (return_value : List Nat)
    (opts : GethDefaultTracingOptions) (copts : CallConfig) (gas_used : Nat) :
    geth_traces [] receipt_gas_used return_value opts = emptyDefaultFrame ∧
    geth_call_traces [] copts gas_used = .ok emptyCallFrame := by
  exact ⟨rfl, rfl⟩

/-- C10: for a nonempty call tree, the envelope's failed flag is the negation of
the root node's success flag, and its gas and return_value equal the supplied
receipt gas and return bytes unchanged, regardless of every other node. -/
theorem c10_envelope_fields (nodes : List CallTraceNode) (n0 : CallTraceNode)
    (receipt_gas_used : Nat) (return_value : List Nat)
    (opts : GethDefaultTracingOptions)
    (h0 : nodes[0]? = some n0) :
    (geth_traces nodes receipt_gas_used return_value opts).failed = !n0.trace.success ∧
    (geth_traces nodes receipt_gas_used return_value opts).gas = receipt_gas_used ∧
    (geth_traces nodes receipt_gas_used return_value opts).return_value = return_value := by
  unfold geth_traces
  rw [h0]
  exact ⟨rfl, rfl, rfl⟩

/-- Fixture: a two-step root node with no children, 21000 receipt gas. -/
def exRootOnly : CallTraceNode :=
  { parent := none
    trace :=
      { kind := 0, caller := 10, address := 11, value := 0, gas_limit := 100,
        gas_used := 90, data := [], output := [], logs := [],
        success := true, selfdestruct := false,
        steps :=
          [ { pc := 0, op := 96, gas_remaining := 100, gas_cost := 3, depth := 1,
              contract := 11, storage_change := none, call_child_id := none },
            { pc := 2, op := 0, gas_remaining := 97, gas_cost := 0, depth := 1,
              contract := 11, storage_change := none, call_child_id := none } ] } }

theorem c10_witness :
    (geth_traces [exRootOnly] 21000 [] ⟨false, false⟩).failed = false ∧
    (geth_traces [exRootOnly] 21000 [] ⟨false, false⟩).gas = 21000 ∧
    (geth_traces [exRootOnly] 21000 [] ⟨false, false⟩).return_value = [] :=
  c10_envelope_fields [exRootOnly] exRootOnly 21000 [] ⟨false, false⟩ rfl

/-! ## Claim C1: execution order of the emitted step logs -/

/-- Expanding a whole node-step block on the stack splits into the node's own
recursive expansion followed by the expansion of the remaining stack. -/
theorem expandStack_append (nodes : List CallTraceNode) (opts : GethDefaultTracingOptions)
    (owner : Nat) (steps : List CallTraceStep) (rest : List CallTraceStepStackItem)
    (st : StorageMap) :
    expandStack nodes opts (stackItems owner steps ++ rest) st =
      ((expandFrom nodes opts owner steps st).1 ++
        (expandStack nodes opts rest (expandFrom nodes opts owner steps st).2).1,
       (expandStack nodes opts rest (expandFrom nodes opts owner steps st).2).2) := by
  induction steps generalizing st with
  | nil =>
    simp only [stackItems, List.map_nil, List.nil_append, expandFrom, List.nil_append]
  | cons step steps ih =>
    simp only [stackItems] at ih
    simp only [stackItems, List.map_cons, List.cons_append]
    cases hc : step.call_child_id with
    | none =>
      simp only [expandStack, expandFrom, hc]
      rw [ih]
      simp
    | some c =>
      by_cases h : owner < c ∧ c < nodes.length
      · simp only [expandStack, expandFrom, hc, dif_pos h, if_pos h]
        rw [ih]
        simp
      · simp only [expandStack, expandFrom, hc, dif_neg h, if_neg h]
        rw [ih]
        simp

/-- Each node owns at most totalSteps steps. -/
theorem childSteps_length_le (nodes : List CallTraceNode) (i : Nat) :
    (childSteps nodes i).length ≤ totalSteps nodes := by
  unfold childSteps totalSteps
  cases hg : nodes[i]? with
  | none => simp
  | some nd =>
    simp only [Option.map_some', Option.getD_some]
    refine List.single_le_sum (by simp) _ ?_
    exact List.mem_map.2 ⟨nd, List.getElem?_mem hg, rfl⟩

/-- Size bound on the recursive expansion: geometric in the remaining depth. -/
theorem expandFrom_length_le (nodes : List CallTraceNode)
    (opts : GethDefaultTracingOptions) (owner : Nat) (steps : List CallTraceStep)
    (st : StorageMap) :
    (expandFrom nodes opts owner steps st).1.length ≤
      steps.length * (totalSteps nodes + 1) ^ (nodes.length - owner) := by
  induction owner, steps, st using expandFrom.induct nodes opts with
  | case1 owner storage => simp [expandFrom]
  | case2 owner storage step rest p c hc h cres ih1 ih2 ihr =>
    have hp : p = processStep nodes opts owner step storage := rfl
    have hcres : cres = expandFrom nodes opts c (childSteps nodes c) p.2 := rfl
    rw [hcres, hp] at ihr
    rw [hp] at ih1
    simp only [expandFrom, hc, dif_pos h]
    have hT : 0 < totalSteps nodes + 1 := Nat.succ_pos _
    obtain ⟨E, hE⟩ : ∃ E, nodes.length - owner = E + 1 := ⟨nodes.length - owner - 1, by omega⟩
    have hde : nodes.length - c ≤ E := by omega
    have hone : 1 ≤ (totalSteps nodes + 1) ^ E := Nat.one_le_pow _ _ hT
    have h1 : (expandFrom nodes opts c (childSteps nodes c)
        (processStep nodes opts owner step storage).2).1.length ≤
        totalSteps nodes * (totalSteps nodes + 1) ^ E :=
      le_trans ih1
        (Nat.mul_le_mul (childSteps_length_le nodes c) (Nat.pow_le_pow_right hT hde))
    have key : 1 + totalSteps nodes * (totalSteps nodes + 1) ^ E ≤
        (totalSteps nodes + 1) ^ (E + 1) := by
      rw [pow_succ]
      nlinarith
    rw [hE] at ihr ⊢
    simp only [List.length_cons, List.length_append]
    nlinarith [h1, key, ihr]
  | case3 owner storage step rest p c hc h ihr =>
    have hp : p = processStep nodes opts owner step storage := rfl
    rw [hp] at ihr
    simp only [expandFrom, hc, dif_neg h]
    have hT : 0 < totalSteps nodes + 1 := Nat.succ_pos _
    have hone : 1 ≤ (totalSteps nodes + 1) ^ (nodes.length - owner) :=
      Nat.one_le_pow _ _ hT
    simp only [List.length_cons]
    nlinarith [ihr, hone]
  | case4 owner storage step rest p hc ihr =>
    have hp : p = processStep nodes opts owner step storage := rfl
    rw [hp] at ihr
    simp only [expandFrom, hc]
    have hT : 0 < totalSteps nodes + 1 := Nat.succ_pos _
    have hone : 1 ≤ (totalSteps nodes + 1) ^ (nodes.length - owner) :=
      Nat.one_le_pow _ _ hT
    simp only [List.length_cons]
    nlinarith [ihr, hone]

/-- A stack is proper when every item's recorded child reference points to a
strictly larger in-range node index. -/
def ProperStack (nodes : List CallTraceNode) (stack : List CallTraceStepStackItem) : Prop :=
  ∀ item ∈ stack, ∀ c, item.call_child_id = some c →
    item.trace_node < c ∧ c < nodes.length

/-- The items pushed for a node of a well-formed tree are proper. -/
theorem properStack_stackItems (nodes : List CallTraceNode) (hwf : WfStepRefs nodes)
    (i : Nat) (hi : i < nodes.length) :
    ProperStack nodes (stackItems i (childSteps nodes i)) := by
  intro item hitem c hc
  simp only [stackItems, List.mem_map] at hitem
  obtain ⟨s, hs, rfl⟩ := hitem
  simp only at hc
  unfold childSteps at hs
  rw [List.getElem?_eq_getElem hi] at hs
  simp only [Option.map_some', Option.getD_some] at hs
  exact hwf i hi s hs c hc

/-- The drained machine loop agrees with the specification-side expansion of
the stack, given enough fuel, on proper stacks of a well-formed tree. -/
theorem fillLoop_eq_expandStack (nodes : List CallTraceNode)
    (opts : GethDefaultTracingOptions) (hwf : WfStepRefs nodes) :
    ∀ fuel stack st, ProperStack nodes stack →
      (expandStack nodes opts stack st).1.length ≤ fuel →
      fillLoop nodes opts fuel stack st = (expandStack nodes opts stack st).1 := by
  intro fuel
  induction fuel with
  | zero =>
    intro stack st hp hlen
    have h0 : (expandStack nodes opts stack st).1 = [] :=
      List.length_eq_zero.1 (Nat.le_zero.1 hlen)
    rw [h0]
    cases stack <;> rfl
  | succ fuel ih =>
    intro stack st hp hlen
    cases stack with
    | nil => rfl
    | cons item rest =>
      cases hc : item.call_child_id with
      | none =>
        have hlen' : (expandStack nodes opts rest
            (processStep nodes opts item.trace_node item.step st).2).1.length ≤ fuel := by
          simp only [expandStack, hc, List.length_cons] at hlen
          omega
        simp only [fillLoop, expandStack, hc]
        rw [ih rest _ (fun it hit => hp it (List.mem_cons_of_mem _ hit)) hlen']
      | some c =>
        have hvalid : item.trace_node < c ∧ c < nodes.length :=
          hp item (List.mem_cons_self _ _) c hc
        have hproper : ProperStack nodes (stackItems c (childSteps nodes c) ++ rest) := by
          intro it hit
          rcases List.mem_append.1 hit with hmem | hmem
          · exact properStack_stackItems nodes hwf c hvalid.2 it hmem
          · exact hp it (List.mem_cons_of_mem _ hmem)
        have hlen' : (expandStack nodes opts (stackItems c (childSteps nodes c) ++ rest)
            (processStep nodes opts item.trace_node item.step st).2).1.length ≤ fuel := by
          rw [expandStack_append]
          simp only [expandStack, hc, if_pos hvalid, List.length_cons,
            List.length_append] at hlen
          simp only [List.length_append]
          omega
        simp only [fillLoop, expandStack, hc, if_pos hvalid]
        rw [push_steps_on_stack]
        rw [ih _ _ hproper hlen']
        rw [expandStack_append]

/-- C1: for every well-formed call tree, the flat struct_logs sequence produced
by geth_traces equals the recursive execution-order expansion of the root: each
node's steps appear in order with, immediately after every call step, the
complete expansion of the referenced child spliced in, at every nesting depth. -/
theorem c1_step_log_execution_order (nodes : List CallTraceNode)
    (receipt_gas_used : Nat) (return_value : List Nat)
    (opts : GethDefaultTracingOptions)
    (hwf : WfStepRefs nodes) (hne : nodes ≠ []) :
    (geth_traces nodes receipt_gas_used return_value opts).struct_logs =
      (expandFrom nodes opts 0 (childSteps nodes 0) []).1 := by
  have h0 : 0 < nodes.length := List.length_pos.2 hne
  obtain ⟨n0, hn0⟩ : ∃ n0, nodes[0]? = some n0 :=
    ⟨nodes[0], (List.getElem?_eq_getElem h0)⟩
  unfold geth_traces
  rw [hn0]
  show fill_geth_trace nodes opts = _
  unfold fill_geth_trace push_steps_on_stack
  have hT : 0 < totalSteps nodes + 1 := Nat.succ_pos _
  have hlen : (expandStack nodes opts (stackItems 0 (childSteps nodes 0) ++ []) []).1.length ≤
      fillFuel nodes := by
    rw [expandStack_append]
    simp only [List.length_append]
    have h1 : (expandFrom nodes opts 0 (childSteps nodes 0) []).1.length ≤
        (childSteps nodes 0).length * (totalSteps nodes + 1) ^ (nodes.length - 0) :=
      expandFrom_length_le nodes opts 0 (childSteps nodes 0) []
    have h2 : (childSteps nodes 0).length ≤ totalSteps nodes := childSteps_length_le nodes 0
    have h3 : (expandStack nodes opts []
        (expandFrom nodes opts 0 (childSteps nodes 0) []).2).1.length = 0 := rfl
    have h4 : (childSteps nodes 0).length * (totalSteps nodes + 1) ^ (nodes.length - 0) ≤
        (totalSteps nodes + 1) * (totalSteps nodes + 1) ^ nodes.length := by
      simp only [Nat.sub_zero]
      exact Nat.mul_le_mul (Nat.le_succ_of_le h2) (Nat.le_refl _)
    have h5 : (totalSteps nodes + 1) * (totalSteps nodes + 1) ^ nodes.length =
        fillFuel nodes := by
      unfold fillFuel
      rw [pow_succ]
      ring
    omega
  rw [fillLoop_eq_expandStack nodes opts hwf (fillFuel nodes)
    (stackItems 0 (childSteps nodes 0) ++ []) [] ?_ hlen]
  · rw [expandStack_append]
    simp [expandStack]
  · intro it hit
    rcases List.mem_append.1 hit with hmem | hmem
    · exact properStack_stackItems nodes hwf 0 h0 it hmem
    · cases hmem

/-- Fixture: the spec's concrete interleaving scenario, root node with three
steps calling a two-step child at step index 1. -/
def exChild : CallTraceNode :=
  { parent := some 0
    trace :=
      { kind := 1, caller := 11, address := 12, value := 0, gas_limit := 50,
        gas_used := 40, data := [7], output := [9], logs := [],
        success := true, selfdestruct := false,
        steps :=
          [ { pc := 0, op := 96, gas_remaining := 50, gas_cost := 3, depth := 2,
              contract := 12, storage_change := none, call_child_id := none },
            { pc := 2, op := 0, gas_remaining := 47, gas_cost := 0, depth := 2,
              contract := 12, storage_change := none, call_child_id := none } ] } }

/-- Fixture: the root of the interleaving scenario. -/
def exRootCalling : CallTraceNode :=
  { parent := none
    trace :=
      { kind := 0, caller := 10, address := 11, value := 0, gas_limit := 100,
        gas_used := 90, data := [], output := [], logs := [],
        success := true, selfdestruct := false,
        steps :=
          [ { pc := 0, op := 96, gas_remaining := 100, gas_cost := 3, depth := 1,
              contract := 11, storage_change := none, call_child_id := none },
            { pc := 2, op := 241, gas_remaining := 97, gas_cost := 40, depth := 1,
              contract := 11, storage_change := none, call_child_id := some 1 },
            { pc := 4, op := 0, gas_remaining := 57, gas_cost := 0, depth := 1,
              contract := 11, storage_change := none, call_child_id := none } ] } }

theorem c1_witness :
    (geth_traces [exRootCalling, exChild] 21000 [] ⟨false, false⟩).struct_logs =
      (expandFrom [exRootCalling, exChild] ⟨false, false⟩ 0
        (childSteps [exRootCalling, exChild] 0) []).1 :=
  c1_step_log_execution_order [exRootCalling, exChild] 21000 [] ⟨false, false⟩
    (by decide) (by decide)

/-! ## Closed form of the build phase of geth_call_traces -/

theorem modifyLast_id {α : Type} (l : List α) : modifyLast (fun x => x) l = l := by
  induction l with
  | nil => rfl
  | cons hd tl ih =>
    cases tl with
    | nil => rfl
    | cons y ys =>
      simp only [modifyLast] at ih ⊢
      rw [ih]

theorem modifyLast_concat {α : Type} (f : α → α) (l : List α) (x : α) :
    modifyLast f (l ++ [x]) = l ++ [f x] := by
  induction l with
  | nil => rfl
  | cons hd tl ih =>
    cases tl with
    | nil => rfl
    | cons y ys =>
      rw [show (hd :: y :: ys) ++ [x] = hd :: ((y :: ys) ++ [x]) from rfl]
      rw [show modifyLast f (hd :: ((y :: ys) ++ [x])) =
        hd :: modifyLast f ((y :: ys) ++ [x]) from rfl]
      rw [ih]
      rfl

/-- The mutation the build loop applies to the previously built frame when the
current node carries a selfdestruct. -/
def sdApply1 (ond : Option CallTraceNode) (p : Nat × CallFrame) : Nat × CallFrame :=
  match ond.bind geth_selfdestruct_call_trace with
  | some sd => (p.1, p.2.pushCall sd)
  | none => p

/-- The frame the build phase holds for node j of the slice l just before
rollup: the node's empty frame with the selfdestruct frame of the next node of
the slice appended. -/
def emptyWithTail (include_logs : Bool) (l : List CallTraceNode) (j : Nat) : CallFrame :=
  match l[j]? with
  | some nd =>
    CallFrame.mk (geth_empty_call_frame include_logs nd).data
      ((l[j + 1]?.bind geth_selfdestruct_call_trace).toList)
  | none => emptyCallFrame

theorem buildLoop_cons (include_logs : Bool) (idx : Nat) (node : CallTraceNode)
    (rest : List (Nat × CallTraceNode)) (frames : List (Nat × CallFrame)) :
    buildLoop include_logs ((idx, node) :: rest) frames =
      buildLoop include_logs rest
        (modifyLast (sdApply1 (some node)) frames ++
          [(idx, geth_empty_call_frame include_logs node)]) := by
  cases hsd : geth_selfdestruct_call_trace node with
  | none =>
    simp only [buildLoop, hsd]
    have : sdApply1 (some node) = fun p => p := by
      funext p
      simp [sdApply1, hsd]
    rw [this, modifyLast_id]
  | some sd =>
    simp only [buildLoop, hsd]
    have : sdApply1 (some node) = fun p => (p.1, p.2.pushCall sd) := by
      funext p
      simp [sdApply1, hsd]
    rw [this]

/-- Closed form of the build loop over an enumerated slice of nodes: the last
accumulator frame receives the selfdestruct frame of the slice's first node,
and each slice node contributes its empty frame carrying the selfdestruct
frame of the next slice node. -/
theorem buildLoop_enumFrom (include_logs : Bool) (l : List CallTraceNode) :
    ∀ (s : Nat) (acc : List (Nat × CallFrame)),
      buildLoop include_logs (l.enumFrom s) acc =
        modifyLast (sdApply1 l[0]?) acc ++
          (List.range l.length).map
            (fun j => (s + j, emptyWithTail include_logs l j)) := by
  induction l with
  | nil =>
    intro s acc
    rw [show buildLoop include_logs (List.enumFrom s ([] : List CallTraceNode)) acc = acc
      from rfl]
    have h2 : sdApply1 (([] : List CallTraceNode)[0]?) = fun p => p := by
      funext p
      rfl
    rw [h2, modifyLast_id]
    simp
  | cons nd rest ih =>
    intro s acc
    simp only [List.enumFrom]
    rw [buildLoop_cons, ih]
    rw [modifyLast_concat]
    have hhead : sdApply1 (rest[0]?) (s, geth_empty_call_frame include_logs nd) =
        (s, emptyWithTail include_logs (nd :: rest) 0) := by
      cases hsd : rest[0]?.bind geth_selfdestruct_call_trace with
      | none =>
        simp only [sdApply1, hsd, emptyWithTail]
        simp only [List.getElem?_cons_zero, List.getElem?_cons_succ]
        rw [hsd]
        rfl
      | some sd =>
        simp only [sdApply1, hsd, emptyWithTail]
        simp only [List.getElem?_cons_zero, List.getElem?_cons_succ]
        rw [hsd]
        rfl
    rw [hhead]
    simp only [List.length_cons]
    rw [List.range_succ_eq_map]
    simp only [List.map_cons, Nat.add_zero, List.map_map]
    rw [List.append_assoc]
    congr 1
    · simp only [List.getElem?_cons_zero]
    · simp only [List.singleton_append]
      congr 1
      apply List.map_congr_left
      intro j hj
      simp only [Function.comp_apply, Nat.succ_eq_add_one]
      have he : emptyWithTail include_logs (nd :: rest) (j + 1) =
          emptyWithTail include_logs rest j := by
        unfold emptyWithTail
        simp only [List.getElem?_cons_succ]
      rw [he]
      have hs : s + 1 + j = s + (j + 1) := by omega
      rw [hs]

/-! ## Rollup correctness -/

theorem assembleSpec_eq (nodes : List CallTraceNode) (include_logs : Bool)
    (gas j : Nat) :
    assembleSpec nodes include_logs gas j =
      CallFrame.mk (baseFrame nodes include_logs gas j).data
        (((childIndices nodes j).map (assembleSpec nodes include_logs gas)) ++
          sdTail nodes j) := by
  unfold assembleSpec
  congr 1
  congr 1
  exact List.attach_map_val _ _

theorem childIndices_mem (nodes : List CallTraceNode) (j i : Nat)
    (h : i ∈ childIndices nodes j) :
    j < i ∧ parentOf nodes i = some j ∧ i < nodes.length := by
  simp only [childIndices, List.mem_filter, List.mem_range, Bool.and_eq_true,
    decide_eq_true_eq] at h
  exact ⟨h.2.1, h.2.2, h.1⟩

/-- A frame whose pending-children filter keeps everything is fully rolled up. -/
theorem partialFrame_self (nodes : List CallTraceNode) (include_logs : Bool)
    (gas j : Nat) :
    partialFrame nodes include_logs gas j j = assembleSpec nodes include_logs gas j := by
  unfold partialFrame
  rw [List.filter_eq_self.2
    (fun i hi => decide_eq_true (childIndices_mem nodes j i hi).1)]
  rw [assembleSpec_eq]

/-- Before any rollup step, no child is assembled yet. -/
theorem partialFrame_top (nodes : List CallTraceNode) (include_logs : Bool)
    (gas k j : Nat) (hk : nodes.length ≤ k + 1) :
    partialFrame nodes include_logs gas k j =
      CallFrame.mk (baseFrame nodes include_logs gas j).data (sdTail nodes j) := by
  unfold partialFrame
  congr 1
  have hempty : (childIndices nodes j).filter (fun i => decide (k < i)) = [] := by
    apply List.filter_eq_nil_iff.2
    intro i hi
    have := (childIndices_mem nodes j i hi).2.2
    simp only [decide_eq_true_eq]
    omega
  rw [hempty]
  rfl

/-- Splitting an ascending filtered range at a present element: the elements
above k are that element (k + 1) followed by the elements above k + 1. -/
theorem filter_range_succ_split (n k : Nat) (P : Nat → Bool)
    (hk : k + 1 < n) (hP : P (k + 1) = true) :
    ((List.range n).filter P).filter (fun i => decide (k < i)) =
      (k + 1) :: ((List.range n).filter P).filter (fun i => decide (k + 1 < i)) := by
  induction n with
  | zero => omega
  | succ m ih =>
    rw [List.range_succ]
    simp only [List.filter_append]
    by_cases hm : k + 1 < m
    · rw [ih hm]
      rw [List.cons_append]
      have hb : List.filter (fun i => decide (k < i)) (List.filter P [m]) =
          List.filter (fun i => decide (k + 1 < i)) (List.filter P [m]) := by
        by_cases hPm : P m = true
        · rw [List.filter_singleton, hPm]
          simp only [cond_true]
          rw [List.filter_singleton, List.filter_singleton]
          have h1 : decide (k < m) = true := by
            simp only [decide_eq_true_eq]
            omega
          have h2 : decide (k + 1 < m) = true := by
            simp only [decide_eq_true_eq]
            omega
          rw [h1, h2]
        · rw [List.filter_singleton]
          rw [Bool.not_eq_true] at hPm
          rw [hPm]
          simp
      rw [hb]
    · have hm' : m = k + 1 := by omega
      subst hm'
      have h1 : ((List.range (k + 1)).filter P).filter (fun i => decide (k < i)) = [] := by
        apply List.filter_eq_nil_iff.2
        intro i hi
        have : i < k + 1 := List.mem_range.1 (List.mem_of_mem_filter hi)
        simp only [decide_eq_true_eq]
        omega
      have h2 : ((List.range (k + 1)).filter P).filter (fun i => decide (k + 1 < i)) = [] := by
        apply List.filter_eq_nil_iff.2
        intro i hi
        have : i < k + 1 := List.mem_range.1 (List.mem_of_mem_filter hi)
        simp only [decide_eq_true_eq]
        omega
      rw [h1, h2]
      simp [hP]

/-- One child joins its parent: the pending children of p above k are node k + 1
(whose parent is p) followed by those above k + 1. -/
theorem childIndices_split (nodes : List CallTraceNode) (p k : Nat)
    (hk : k + 1 < nodes.length) (hp : parentOf nodes (k + 1) = some p)
    (hlt : p < k + 1) :
    (childIndices nodes p).filter (fun i => decide (k < i)) =
      (k + 1) :: (childIndices nodes p).filter (fun i => decide (k + 1 < i)) := by
  unfold childIndices
  apply filter_range_succ_split nodes.length k _ hk
  simp [hp, hlt]

/-- A node that is not a child of j changes nothing in j's pending children. -/
theorem childIndices_filter_stable (nodes : List CallTraceNode) (j k : Nat)
    (hnot : ¬ (parentOf nodes (k + 1) = some j ∧ j < k + 1)) :
    (childIndices nodes j).filter (fun i => decide (k < i)) =
      (childIndices nodes j).filter (fun i => decide (k + 1 < i)) := by
  apply List.filter_congr
  intro i hi
  obtain ⟨hji, hpar, hin⟩ := childIndices_mem nodes j i hi
  have : i ≠ k + 1 := by
    intro h
    subst h
    exact hnot ⟨hpar, hji⟩
  simp only [decide_eq_true_eq, decide_eq_decide]
  omega

/-- One rollup step pops the fully assembled frame of the highest remaining
node and inserts it at the front of its parent's pending child list. -/
theorem framesState_step (nodes : List CallTraceNode) (include_logs : Bool)
    (gas k p : Nat) (hk : k + 1 < nodes.length)
    (hp : parentOf nodes (k + 1) = some p) (hlt : p < k + 1) :
    ((List.range (k + 1)).map
        (fun j => (j, partialFrame nodes include_logs gas (k + 1) j))).set p
      (p, (partialFrame nodes include_logs gas (k + 1) p).consCall
        (assembleSpec nodes include_logs gas (k + 1))) =
      framesState nodes include_logs gas k := by
  have h1 : (partialFrame nodes include_logs gas (k + 1) p).data =
      (baseFrame nodes include_logs gas p).data := rfl
  have h2 : (partialFrame nodes include_logs gas (k + 1) p).calls =
      ((childIndices nodes p).filter (fun i => decide (k + 1 < i))).map
        (assembleSpec nodes include_logs gas) ++ sdTail nodes p := rfl
  have hmerge : (partialFrame nodes include_logs gas (k + 1) p).consCall
      (assembleSpec nodes include_logs gas (k + 1)) =
      partialFrame nodes include_logs gas k p := by
    unfold CallFrame.consCall
    rw [h1, h2]
    unfold partialFrame
    congr 1
    rw [childIndices_split nodes p k hk hp hlt]
    simp only [List.map_cons, List.cons_append]
  have hstable : ∀ j, j ≠ p → partialFrame nodes include_logs gas (k + 1) j =
      partialFrame nodes include_logs gas k j := by
    intro j hj
    unfold partialFrame
    congr 2
    rw [childIndices_filter_stable nodes j k]
    intro hcon
    exact hj (Option.some.inj (hcon.1.symm.trans hp))
  apply List.ext_getElem?
  intro i
  rw [List.getElem?_set]
  unfold framesState
  rw [List.getElem?_map, List.getElem?_map]
  simp only [List.length_map, List.length_range]
  by_cases hip : p = i
  · subst hip
    rw [List.getElem?_range hlt]
    rw [if_pos rfl, if_pos hlt, hmerge]
    rfl
  · rw [if_neg hip]
    by_cases hi : i < k + 1
    · rw [List.getElem?_range hi]
      simp only [Option.map_some']
      rw [hstable i (fun h => hip h.symm)]
    · rw [List.getElem?_eq_none (by simpa using Nat.le_of_not_lt hi)]
      rfl

/-- Rolling up the partially assembled frame vector of a well-formed tree from
entries 0..k produces the fully assembled root frame. -/
theorem rollup_framesState (nodes : List CallTraceNode) (include_logs : Bool)
    (gas : Nat) (hroot : parentOf nodes 0 = none)
    (hwf : ∀ i, 0 < i → i < nodes.length →
      ∃ p, parentOf nodes i = some p ∧ p < i) :
    ∀ k, k < nodes.length →
      rollupLoop nodes (k + 2) (framesState nodes include_logs gas k) =
        .ok (assembleSpec nodes include_logs gas 0) := by
  intro k
  induction k with
  | zero =>
    intro hk
    obtain ⟨n0, hn0⟩ : ∃ n0, nodes[0]? = some n0 :=
      ⟨nodes[0], List.getElem?_eq_getElem hk⟩
    have hpar : n0.parent = none := by
      unfold parentOf at hroot
      rw [hn0] at hroot
      simpa using hroot
    have hfs : framesState nodes include_logs gas 0 =
        [(0, partialFrame nodes include_logs gas 0 0)] := rfl
    rw [hfs]
    simp only [rollupLoop, List.getLast?_singleton, List.dropLast_single, hn0, hpar,
      List.isEmpty_nil, if_pos rfl]
    simp [partialFrame_self]
  | succ k ih =>
    intro hk
    obtain ⟨node, hnode⟩ : ∃ nd, nodes[k + 1]? = some nd :=
      ⟨nodes[k + 1], List.getElem?_eq_getElem hk⟩
    obtain ⟨p, hp, hlt⟩ := hwf (k + 1) (Nat.succ_pos k) hk
    have hpar : node.parent = some p := by
      unfold parentOf at hp
      rw [hnode] at hp
      simpa using hp
    have hfs : framesState nodes include_logs gas (k + 1) =
        ((List.range (k + 1)).map
          (fun j => (j, partialFrame nodes include_logs gas (k + 1) j))) ++
        [(k + 1, partialFrame nodes include_logs gas (k + 1) (k + 1))] := by
      unfold framesState
      rw [List.range_succ, List.map_append]
      rfl
    rw [hfs]
    have hrest : (((List.range (k + 1)).map
        (fun j => (j, partialFrame nodes include_logs gas (k + 1) j))) ++
        [(k + 1, partialFrame nodes include_logs gas (k + 1) (k + 1))]).dropLast =
        (List.range (k + 1)).map
          (fun j => (j, partialFrame nodes include_logs gas (k + 1) j)) :=
      List.dropLast_concat
    have hpget : ((List.range (k + 1)).map
        (fun j => (j, partialFrame nodes include_logs gas (k + 1) j)))[p]? =
        some (p, partialFrame nodes include_logs gas (k + 1) p) := by
      rw [List.getElem?_map, List.getElem?_range hlt]
      rfl
    simp only [rollupLoop, List.getLast?_concat, hrest, hnode, hpar, hpget]
    rw [show (partialFrame nodes include_logs gas (k + 1) p).consCall
        (partialFrame nodes include_logs gas (k + 1) (k + 1)) =
      (partialFrame nodes include_logs gas (k + 1) p).consCall
        (assembleSpec nodes include_logs gas (k + 1)) from by rw [partialFrame_self]]
    rw [framesState_step nodes include_logs gas k p hk hp hlt]
    exact ih (Nat.lt_of_succ_lt hk)

/-- The root frame built by geth_call_traces, after the build loop has pushed
the second node's selfdestruct frame onto it, is the pending frame of node 0. -/
theorem rootFrame_eq (n0 : CallTraceNode) (tail : List CallTraceNode)
    (include_logs : Bool) (gas : Nat) :
    sdApply1 tail[0]?
      (0, match geth_selfdestruct_call_trace n0 with
        | some sd => ((geth_empty_call_frame include_logs n0).withGasUsed gas).pushCall sd
        | none => (geth_empty_call_frame include_logs n0).withGasUsed gas) =
      (0, CallFrame.mk (baseFrame (n0 :: tail) include_logs gas 0).data
        (sdTail (n0 :: tail) 0)) := by
  cases hsd0 : geth_selfdestruct_call_trace n0 <;>
    cases hsd1 : tail[0]?.bind geth_selfdestruct_call_trace <;>
      simp [sdApply1, hsd0, hsd1, sdTail, sdFrameOf, baseFrame, CallFrame.pushCall,
        CallFrame.withGasUsed, List.getElem?_cons_succ, List.getElem?_cons_zero,
        geth_empty_call_frame]

/-- The pending frame of every non-root node before rollup. -/
theorem tailFrame_eq (n0 : CallTraceNode) (tail : List CallTraceNode)
    (include_logs : Bool) (gas j : Nat) (hj : j < tail.length) :
    emptyWithTail include_logs tail j =
      partialFrame (n0 :: tail) include_logs gas tail.length (j + 1) := by
  rw [partialFrame_top _ _ _ _ _ (by simp)]
  obtain ⟨nd, hnd⟩ : ∃ nd, tail[j]? = some nd :=
    ⟨tail[j], List.getElem?_eq_getElem hj⟩
  unfold emptyWithTail baseFrame sdTail sdFrameOf
  rw [hnd]
  simp only [List.getElem?_cons_succ, hnd, Nat.add_eq_zero, Nat.succ_ne_zero,
    and_false, if_false]
  rfl

/-- The build phase produces exactly the pending-frame vector of the rollup. -/
theorem build_eq_framesState (n0 : CallTraceNode) (tail : List CallTraceNode)
    (include_logs : Bool) (gas : Nat) :
    buildLoop include_logs ((n0 :: tail).enum.drop 1)
      [(0, match geth_selfdestruct_call_trace n0 with
        | some sd => ((geth_empty_call_frame include_logs n0).withGasUsed gas).pushCall sd
        | none => (geth_empty_call_frame include_logs n0).withGasUsed gas)] =
      framesState (n0 :: tail) include_logs gas tail.length := by
  rw [List.enum_cons]
  rw [show ((0, n0) :: List.enumFrom 1 tail).drop 1 = List.enumFrom 1 tail from rfl]
  rw [buildLoop_enumFrom]
  unfold framesState
  rw [List.range_succ_eq_map]
  simp only [List.map_cons, List.map_map]
  rw [show modifyLast (sdApply1 tail[0]?)
      [(0, match geth_selfdestruct_call_trace n0 with
        | some sd => ((geth_empty_call_frame include_logs n0).withGasUsed gas).pushCall sd
        | none => (geth_empty_call_frame include_logs n0).withGasUsed gas)] =
      [sdApply1 tail[0]?
        (0, match geth_selfdestruct_call_trace n0 with
          | some sd => ((geth_empty_call_frame include_logs n0).withGasUsed gas).pushCall sd
          | none => (geth_empty_call_frame include_logs n0).withGasUsed gas)] from rfl]
  rw [rootFrame_eq n0 tail include_logs gas]
  rw [List.singleton_append]
  congr 1
  · rw [partialFrame_top _ _ _ _ _ (by simp)]
  · apply List.map_congr_left
    intro j hj
    simp only [Function.comp_apply, Nat.succ_eq_add_one]
    rw [← tailFrame_eq n0 tail include_logs gas j (List.mem_range.1 hj)]
    have : 1 + j = j + 1 := by omega
    rw [this]

/-- Master correctness of the rollup: for a well-formed call tree, and unless
only the top call is requested, geth_call_traces returns exactly the
recursively assembled frame tree of node 0, whose children at every level are
ordered by ascending node index. -/
theorem geth_call_traces_eq_assemble (nodes : List CallTraceNode)
    (opts : CallConfig) (gas : Nat) (hwf : WfParents nodes)
    (htop : opts.only_top_call.getD false = false) :
    geth_call_traces nodes opts gas =
      .ok (assembleSpec nodes (opts.with_log.getD false) gas 0) := by
  obtain ⟨hne, hroot, hpar⟩ := hwf
  cases hnodes : nodes with
  | nil => exact absurd hnodes hne
  | cons n0 tail =>
    subst hnodes
    show (if opts.only_top_call.getD false = true then _ else _) = _
    rw [htop]
    simp only [Bool.false_eq_true, if_false]
    rw [build_eq_framesState n0 tail (opts.with_log.getD false) gas]
    have hlen : (framesState (n0 :: tail) (opts.with_log.getD false) gas
        tail.length).length = tail.length + 1 := by
      unfold framesState
      simp
    rw [hlen]
    exact rollup_framesState (n0 :: tail) (opts.with_log.getD false) gas hroot
      (fun i h0 hi => hpar i h0 hi) tail.length (by simp)

/-- If some non-root entry of the frame vector belongs to a parentless node,
the rollup aborts with one of its modelled panics, never returning a frame. -/
theorem rollupLoop_error (nodes : List CallTraceNode) :
    ∀ (fuel : Nat) (frames : List (Nat × CallFrame)),
      frames.length < fuel →
      (∀ i, ∀ x : Nat × CallFrame, frames[i]? = some x → x.1 = i) →
      (∃ k, 0 < k ∧ k < frames.length ∧ parentOf nodes k = none) →
      ∃ e, rollupLoop nodes fuel frames = .error e := by
  intro fuel
  induction fuel with
  | zero =>
    intro frames hlen hpos hk
    omega
  | succ fuel ih =>
    intro frames hlen hpos hk
    obtain ⟨k, hk0, hkl, hkpar⟩ := hk
    have hne : frames ≠ [] := by
      intro h
      rw [h] at hkl
      simp at hkl
    obtain ⟨idx, call, hlast⟩ : ∃ idx call, frames.getLast? = some (idx, call) := by
      cases hl : frames.getLast? with
      | none => exact absurd (List.getLast?_eq_none_iff.mp hl) hne
      | some x =>
        obtain ⟨a, b⟩ := x
        exact ⟨a, b, rfl⟩
    have hframeslen : 0 < frames.length := List.length_pos.2 hne
    have hidx : idx = frames.length - 1 := by
      have := hlast
      rw [List.getLast?_eq_getElem?] at this
      exact hpos _ _ this
    simp only [rollupLoop, hlast]
    cases hnd : nodes[idx]? with
    | none => exact ⟨_, rfl⟩
    | some node =>
      cases hpar : node.parent with
      | none =>
        have hrest : frames.dropLast.isEmpty = false := by
          rw [Bool.eq_false_iff]
          intro hcon
          have := List.isEmpty_iff.1 hcon
          have hlen' := congrArg List.length this
          rw [List.length_dropLast] at hlen'
          simp at hlen'
          omega
        refine ⟨"only one root node has no parent", ?_⟩
        simp [hpar, hrest]
      | some p =>
        simp only [hpar]
        cases hpget : frames.dropLast[p]? with
        | none =>
          refine ⟨"call frame index out of bounds", ?_⟩
          simp [hpget]
        | some pf =>
          simp only [hpget]
          apply ih
          · rw [List.length_set, List.length_dropLast]
            omega
          · intro i x hx
            rw [List.getElem?_set] at hx
            by_cases hpi : p = i
            · subst hpi
              rw [if_pos rfl] at hx
              by_cases hplen : p < frames.dropLast.length
              · rw [if_pos hplen] at hx
                cases hx
                have := hpos p pf (by
                  rw [List.getElem?_dropLast] at hpget
                  by_cases hp2 : p < frames.length - 1
                  · rw [if_pos hp2] at hpget
                    exact hpget
                  · rw [if_neg hp2] at hpget
                    cases hpget)
                simpa using this
              · rw [if_neg hplen] at hx
                cases hx
            · rw [if_neg hpi] at hx
              rw [List.getElem?_dropLast] at hx
              by_cases hi2 : i < frames.length - 1
              · rw [if_pos hi2] at hx
                exact hpos i x hx
              · rw [if_neg hi2] at hx
                cases hx
          · refine ⟨k, hk0, ?_, hkpar⟩
            rw [List.length_set, List.length_dropLast]
            have hkidx : k ≠ idx := by
              intro h
              rw [h] at hkpar
              unfold parentOf at hkpar
              rw [hnd] at hkpar
              simp [hpar] at hkpar
            omega

/-- The build phase fills positions with their own indices. -/
theorem build_positions (nodes : List CallTraceNode) (opts : CallConfig) (gas : Nat)
    (n0 : CallTraceNode) (tail : List CallTraceNode) (hnodes : nodes = n0 :: tail) :
    ∀ i, ∀ x : Nat × CallFrame,
      (framesState nodes (opts.with_log.getD false) gas tail.length)[i]? = some x →
      x.1 = i := by
  intro i x hx
  unfold framesState at hx
  rw [List.getElem?_map] at hx
  by_cases hi : i < tail.length + 1
  · rw [List.getElem?_range hi] at hx
    cases hx
    rfl
  · rw [List.getElem?_eq_none (by simpa using Nat.le_of_not_lt hi)] at hx
    cases hx

/-! ## Claims C2, C3 and C5 -/

/-- C2: for every well-formed call tree (root parentless, every other node's
parent index strictly below its own), and unless only the top call is
requested, geth_call_traces returns exactly the recursive assembly in which
every frame's non-synthetic children are the frames of its child nodes in
ascending node-index order (childIndices is strictly sorted), followed only by
synthetic selfdestruct frames; descending-order processing with front
insertion is what the rollup loop implements. -/
theorem c2_call_frame_rollup_order (nodes : List CallTraceNode) (opts : CallConfig)
    (gas : Nat) (hwf : WfParents nodes)
    (htop : opts.only_top_call.getD false = false) :
    geth_call_traces nodes opts gas =
      .ok (assembleSpec nodes (opts.with_log.getD false) gas 0) ∧
    ∀ j, List.Sorted (· < ·) (childIndices nodes j) := by
  refine ⟨geth_call_traces_eq_assemble nodes opts gas hwf htop, ?_⟩
  intro j
  exact (List.pairwise_lt_range nodes.length).filter _

/-- Fixture: a root with two direct children; the second child selfdestructs. -/
def c3root : CallTraceNode :=
  { parent := none
    trace :=
      { kind := 0, caller := 1, address := 2, value := 0, gas_limit := 10,
        gas_used := 5, data := [], output := [], logs := [], success := true,
        selfdestruct := false, steps := [] } }

/-- Fixture: first child of the root, no selfdestruct. -/
def c3child1 : CallTraceNode :=
  { parent := some 0
    trace :=
      { kind := 1, caller := 2, address := 3, value := 0, gas_limit := 5,
        gas_used := 2, data := [], output := [], logs := [], success := true,
        selfdestruct := false, steps := [] } }

/-- Fixture: second child of the root, ends in a selfdestruct. -/
def c3child2 : CallTraceNode :=
  { parent := some 0
    trace :=
      { kind := 1, caller := 2, address := 4, value := 0, gas_limit := 5,
        gas_used := 2, data := [], output := [], logs := [], success := true,
        selfdestruct := true, steps := [] } }

/-- Fixture: the three-node tree 0 with children 1 and 2. -/
def c3nodes : List CallTraceNode := [c3root, c3child1, c3child2]

/-- Fixture: full call-tracer configuration. -/
def c3opts : CallConfig := { only_top_call := some false, with_log := some false }

theorem c2_witness :
    geth_call_traces c3nodes c3opts 100 =
      .ok (assembleSpec c3nodes (c3opts.with_log.getD false) 100 0) ∧
    ∀ j, List.Sorted (· < ·) (childIndices c3nodes j) :=
  c2_call_frame_rollup_order c3nodes c3opts 100 (by decide) (by decide)

/-- C3 counterexample: node 2 selfdestructs and its parent is node 0 (the
root), yet the assembled tree has no selfdestruct frame among the root's
children: the synthetic frame was appended to the frame of node 1 (the
previously materialized frame), which is not node 2's parent. The direct
children of the root are the two CALL frames (kind 1), and the selfdestruct
frame (kind selfdestructKind) sits below the first of them. -/
theorem c3_counterexample :
    parentOf c3nodes 2 = some 0 ∧
    (c3nodes[2]?).map (fun nd => nd.trace.selfdestruct) = some true ∧
    ((geth_call_traces c3nodes c3opts 100).toOption.map
      (fun f => f.calls.map (fun c => c.data.typ))) = some [1, 1] ∧
    ((geth_call_traces c3nodes c3opts 100).toOption.map
      (fun f => f.calls.map (fun c => c.calls.map (fun d => d.data.typ)))) =
      some [[selfdestructKind], []] := by
  decide

/-- C3 (amended): the synthesized selfdestruct frame of a node is appended to
the child list of the most recently materialized frame, which is the frame of
the node's arena predecessor, not of its parent: in the assembled tree the
frame of node j carries, after its real children, exactly the selfdestruct
frame of node j + 1 (and the root additionally carries its own selfdestruct
frame first). -/
theorem c3_amended (nodes : List CallTraceNode) (opts : CallConfig) (gas : Nat)
    (hwf : WfParents nodes) (htop : opts.only_top_call.getD false = false) :
    geth_call_traces nodes opts gas =
      .ok (assembleSpec nodes (opts.with_log.getD false) gas 0) ∧
    (∀ j, 0 < j → sdTail nodes j = (sdFrameOf nodes (j + 1)).toList) ∧
    sdTail nodes 0 = (sdFrameOf nodes 0).toList ++ (sdFrameOf nodes 1).toList := by
  refine ⟨geth_call_traces_eq_assemble nodes opts gas hwf htop, ?_, rfl⟩
  intro j hj
  unfold sdTail
  rw [if_neg (by omega)]
  rfl

theorem c3_witness :
    geth_call_traces c3nodes c3opts 100 =
      .ok (assembleSpec c3nodes (c3opts.with_log.getD false) 100 0) ∧
    (∀ j, 0 < j → sdTail c3nodes j = (sdFrameOf c3nodes (j + 1)).toList) ∧
    sdTail c3nodes 0 = (sdFrameOf c3nodes 0).toList ++ (sdFrameOf c3nodes 1).toList :=
  c3_amended c3nodes c3opts 100 (by decide) (by decide)

/-- C5: a node other than index 0 lacking a parent reference makes the rollup
abort with a modelled panic (debug-build semantics of the debug_assert, or one
of the genuine expect and indexing panics), never returning a frame tree;
conversely every well-formed tree rolls up without any abort. -/
theorem c5_internal_consistency (nodes : List CallTraceNode) (opts : CallConfig)
    (gas : Nat) :
    ((∃ k, 0 < k ∧ k < nodes.length ∧ parentOf nodes k = none) →
      nodes ≠ [] → opts.only_top_call.getD false = false →
      ∃ e, geth_call_traces nodes opts gas = .error e) ∧
    (WfParents nodes → ∃ f, geth_call_traces nodes opts gas = .ok f) := by
  constructor
  · intro hk hne htop
    cases hnodes : nodes with
    | nil => exact absurd hnodes hne
    | cons n0 tail =>
      subst hnodes
      obtain ⟨k, hk0, hkn, hkp⟩ := hk
      have hlen : (framesState (n0 :: tail) (opts.with_log.getD false) gas
          tail.length).length = tail.length + 1 := by
        unfold framesState
        simp
      have herr : ∃ e, rollupLoop (n0 :: tail)
          ((framesState (n0 :: tail) (opts.with_log.getD false) gas tail.length).length + 1)
          (framesState (n0 :: tail) (opts.with_log.getD false) gas tail.length) =
          .error e := by
        refine rollupLoop_error (n0 :: tail) _ _ (by omega)
          (build_positions (n0 :: tail) opts gas n0 tail rfl) ?_
        refine ⟨k, hk0, ?_, hkp⟩
        rw [hlen]
        simpa using hkn
      obtain ⟨e, he⟩ := herr
      refine ⟨e, ?_⟩
      show (if opts.only_top_call.getD false = true then _ else _) = _
      rw [htop]
      simp only [Bool.false_eq_true, if_false]
      rw [build_eq_framesState n0 tail (opts.with_log.getD false) gas]
      exact he
  · intro hwf
    by_cases htop : opts.only_top_call.getD false = false
    · exact ⟨_, geth_call_traces_eq_assemble nodes opts gas hwf htop⟩
    · have htop' : opts.only_top_call.getD false = true := by
        revert htop
        cases opts.only_top_call.getD false <;> simp
      cases hnodes : nodes with
      | nil => exact ⟨emptyCallFrame, rfl⟩
      | cons n0 tail =>
        subst hnodes
        refine ⟨(match geth_selfdestruct_call_trace n0 with
          | some sd =>
            ((geth_empty_call_frame (opts.with_log.getD false) n0).withGasUsed gas).pushCall sd
          | none => (geth_empty_call_frame (opts.with_log.getD false) n0).withGasUsed gas), ?_⟩
        show (if opts.only_top_call.getD false = true then _ else _) = _
        rw [htop']
        simp only [if_true]

/-- Fixture: a malformed two-node tree whose second node lacks a parent. -/
def c5bad : List CallTraceNode :=
  [c3root,
   { parent := none
     trace :=
       { kind := 1, caller := 2, address := 3, value := 0, gas_limit := 5,
         gas_used := 2, data := [], output := [], logs := [], success := true,
         selfdestruct := false, steps := [] } }]

theorem c5_witness :
    (∃ e, geth_call_traces c5bad c3opts 7 = .error e) ∧
    (∃ f, geth_call_traces c3nodes c3opts 7 = .ok f) :=
  ⟨(c5_internal_consistency c5bad c3opts 7).1 ⟨1, by decide⟩ (by decide) (by decide),
   (c5_internal_consistency c3nodes c3opts 7).2 (by decide)⟩

end GethSpec
